import Mathlib

/-!
Shallow embedding of the graph exercise (two Rust source files,
`src/lib.rs` and `src/main.rs`).  Machine integers (`u32`, `usize`) are
modelled as `Nat`; the programs never rely on wrap-around, and every
place where overflow or a panic matters is modelled explicitly
(`Option`, with `none` standing for a fatal panic/abort).
-/

namespace HmhEx1

/-- Model of `type Edge = (Node, Node, Weight)`, where `Node` and `Weight`
are both `u32`; the three `u32` components are modelled as naturals. -/
abbrev Edge := ℕ × ℕ × ℕ

/-- Strict lexicographic order on edge triples: the derived `Ord` on
`(u32, u32, u32)` that `BTreeSet<Edge>` sorts by. -/
def edgeLt (e f : Edge) : Prop :=
  e.1 < f.1 ∨ (e.1 = f.1 ∧ (e.2.1 < f.2.1 ∨ (e.2.1 = f.2.1 ∧ e.2.2 < f.2.2)))

instance (e f : Edge) : Decidable (edgeLt e f) := by
  unfold edgeLt
  infer_instance

theorem edgeLt_trans {e f g : Edge} (h1 : edgeLt e f) (h2 : edgeLt f g) : edgeLt e g := by
  obtain ⟨a, b, c⟩ := e
  obtain ⟨d, u, v⟩ := f
  obtain ⟨x, y, z⟩ := g
  simp only [edgeLt] at h1 h2 ⊢
  omega

theorem edgeLt_total (e f : Edge) : edgeLt e f ∨ e = f ∨ edgeLt f e := by
  obtain ⟨a, b, c⟩ := e
  obtain ⟨d, u, v⟩ := f
  simp only [edgeLt, Prod.mk.injEq]
  omega

theorem edgeLt_irrefl (e : Edge) : ¬ edgeLt e e := by
  obtain ⟨a, b, c⟩ := e
  simp only [edgeLt]
  omega

/-- Ordered-set insertion: `BTreeSet::insert` keeps elements sorted and
leaves the set unchanged when the element is already present. -/
def insertEdge (e : Edge) : List Edge → List Edge
  | [] => [e]
  | x :: xs =>
    if edgeLt e x then e :: x :: xs
    else if e = x then x :: xs
    else x :: insertEdge e xs

/-- Model of `collect::<BTreeSet<Edge>>()` on an iterator: insert every
produced element into an initially empty ordered set.  The resulting
sorted list is also the set's iteration order. -/
def collectSet (l : List Edge) : List Edge :=
  l.foldl (fun s e => insertEdge e s) []

theorem mem_insertEdge {x e : Edge} {l : List Edge} :
    x ∈ insertEdge e l ↔ x = e ∨ x ∈ l := by
  induction l with
  | nil => simp [insertEdge]
  | cons y ys ih =>
    by_cases h1 : edgeLt e y
    · simp [insertEdge, h1]
    · by_cases h2 : e = y
      · subst h2
        simp [insertEdge, h1]
      · simp only [insertEdge, if_neg h1, if_neg h2, List.mem_cons, ih]
        tauto

theorem pairwise_insertEdge {e : Edge} {l : List Edge}
    (h : l.Pairwise edgeLt) : (insertEdge e l).Pairwise edgeLt := by
  induction l with
  | nil => simp [insertEdge]
  | cons y ys ih =>
    rw [List.pairwise_cons] at h
    obtain ⟨hy, hys⟩ := h
    simp only [insertEdge]
    by_cases h1 : edgeLt e y
    · rw [if_pos h1]
      refine List.pairwise_cons.2 ⟨?_, List.pairwise_cons.2 ⟨hy, hys⟩⟩
      intro z hz
      rcases List.mem_cons.1 hz with rfl | hz
      · exact h1
      · exact edgeLt_trans h1 (hy z hz)
    · rw [if_neg h1]
      by_cases h2 : e = y
      · rw [if_pos h2]
        exact List.pairwise_cons.2 ⟨hy, hys⟩
      · rw [if_neg h2]
        have hye : edgeLt y e := by
          rcases edgeLt_total e y with h | h | h
          · exact absurd h h1
          · exact absurd h h2
          · exact h
        refine List.pairwise_cons.2 ⟨?_, ih hys⟩
        intro z hz
        rcases mem_insertEdge.1 hz with rfl | hz
        · exact hye
        · exact hy z hz

theorem mem_foldl_insertEdge {x : Edge} {l : List Edge} :
    ∀ {s : List Edge}, x ∈ l.foldl (fun s e => insertEdge e s) s ↔ x ∈ s ∨ x ∈ l := by
  induction l with
  | nil => simp
  | cons y ys ih =>
    intro s
    simp only [List.foldl_cons, ih, mem_insertEdge, List.mem_cons]
    tauto

theorem pairwise_foldl_insertEdge {l : List Edge} :
    ∀ {s : List Edge}, s.Pairwise edgeLt →
      (l.foldl (fun s e => insertEdge e s) s).Pairwise edgeLt := by
  induction l with
  | nil => intro s hs; simpa using hs
  | cons y ys ih =>
    intro s hs
    exact ih (pairwise_insertEdge hs)

theorem mem_collectSet {x : Edge} {l : List Edge} :
    x ∈ collectSet l ↔ x ∈ l := by
  simp [collectSet, mem_foldl_insertEdge]

theorem pairwise_collectSet (l : List Edge) :
    (collectSet l).Pairwise edgeLt :=
  pairwise_foldl_insertEdge List.Pairwise.nil

/-!  Adjacency-matrix graph.  The struct `GraphMat` and its `add_node`,
`add_edge` and `get_edge_weight` code are textually identical in
`lib.rs` and `main.rs`; only `edges` differs between the two files, so
one Lean structure carries both `edges` variants. -/

/-- Model of `struct GraphMat`: a node count plus the flat `Vec<Weight>`
holding the `node_count * node_count` weight matrix. -/
structure GraphMat where
  node_count : ℕ
  links : List ℕ
deriving DecidableEq, Repr

/-- Value of `GraphMat::default()`: zero nodes and an empty weight vector. -/
def matEmpty : GraphMat := ⟨0, []⟩

/-- Weight stored at matrix cell `(r, c)`, i.e. flat index
`r * node_count + c`, read as 0 when the index is out of range.  Used to
state properties about the backing array. -/
def cellAt (g : GraphMat) (r c : ℕ) : ℕ :=
  g.links.getD (r * g.node_count + c) 0

/-- Row `r` of the vector reallocated by `GraphMat::add_node`: the copy
loop zips the `n + 1` new rows (`chunks_mut(new_node_count)`) with the
`n` old rows (`chunks_mut(node_count)`) and copies each old row into the
first `n` slots of the new row, so row `r < n` is the old row `r`
followed by one zero and the last row stays all-zero. -/
def newRow (links : List ℕ) (n r : ℕ) : List ℕ :=
  if r < n then (links.drop (r * n)).take n ++ [0] else List.replicate (n + 1) 0

/-- Model of `GraphMat::add_node` (identical in both files): allocate a
zero-filled vector of size `(node_count + 1)^2`, copy the old rows into
the prefixes of the corresponding new rows, bump the count, and return
the new node id, which is the old count. -/
def GraphMat.add_node (g : GraphMat) : GraphMat × ℕ :=
  (⟨g.node_count + 1,
    ((List.range (g.node_count + 1)).map (newRow g.links g.node_count)).flatten⟩,
   g.node_count)

/-- Rust `vec[i] = w`, which panics (`none`) when `i` is out of bounds. -/
def setW (l : List ℕ) (i w : ℕ) : Option (List ℕ) :=
  if i < l.length then some (l.set i w) else none

/-- Model of `GraphMat::add_edge` (identical in both files): write the
weight at `a * node_count + b`, then at `b * node_count + a`.  Either
indexing panics when out of bounds; a panic is modelled as `none` and
the partially mutated state is discarded, as the process aborts. -/
def GraphMat.add_edge (g : GraphMat) (a b w : ℕ) : Option GraphMat :=
  (setW g.links (a * g.node_count + b) w).bind fun l1 =>
    (setW l1 (b * g.node_count + a) w).map fun l2 => ⟨g.node_count, l2⟩

/-- Model of `GraphMat::get_edge_weight` from `lib.rs`: read
`links.get(a * node_count + b)`, propagating `None` for an out-of-range
index, and turn a stored 0 into `None`. -/
def GraphMat.get_edge_weight (g : GraphMat) (a b : ℕ) : Option ℕ :=
  match g.links[a * g.node_count + b]? with
  | none => none
  | some w => if w = 0 then none else some w

/-- Model of `GraphMat::edges` from `lib.rs`: enumerate the flat vector,
keep positive weights, and map index `i` to `(i % n, i / n, weight)`
(the code computes `y = i / node_count`, `x = i % node_count` and emits
`(x, y, weight)`); collect into a `BTreeSet`.  Note there is no
below-diagonal filter in this file. -/
def GraphMat.edges (g : GraphMat) : List Edge :=
  collectSet ((g.links.enum.filter fun p => decide (0 < p.2)).map fun p =>
    (p.1 % g.node_count, p.1 / g.node_count, p.2))

/-- Model of `GraphMat::edges` from `main.rs`: same enumeration, but the
`filter_map` drops positions with `x < y` (strictly below the diagonal)
and emits `(y, x, weight)`; collect into a `BTreeSet`. -/
def matEdgesMain (g : GraphMat) : List Edge :=
  collectSet ((g.links.enum.filter fun p => decide (0 < p.2)).filterMap fun p =>
    if p.1 % g.node_count < p.1 / g.node_count then none
    else some (p.1 / g.node_count, p.1 % g.node_count, p.2))

theorem mul_add_lt_mul {a b n : ℕ} (ha : a < n) (hb : b < n) :
    a * n + b < n * n := by
  have h1 : (a + 1) * n ≤ n * n := Nat.mul_le_mul_right n ha
  have h2 : (a + 1) * n = a * n + n := by ring
  omega

theorem idx_inj {a c d b n : ℕ} (hc : c < n) (hb : b < n) :
    a * n + c = d * n + b ↔ a = d ∧ c = b := by
  constructor
  · intro h
    have hn : 0 < n := Nat.lt_of_le_of_lt (Nat.zero_le c) hc
    have hmod : (n * a + c) % n = (n * d + b) % n := by
      rw [Nat.mul_comm n a, Nat.mul_comm n d, h]
    rw [Nat.mul_add_mod, Nat.mul_add_mod, Nat.mod_eq_of_lt hc, Nat.mod_eq_of_lt hb] at hmod
    subst hmod
    have hmul : a * n = d * n := by omega
    exact ⟨Nat.eq_of_mul_eq_mul_right hn hmul, rfl⟩
  · rintro ⟨rfl, rfl⟩
    rfl

theorem length_newRow {links : List ℕ} {n : ℕ} (hlen : links.length = n * n)
    (r : ℕ) : (newRow links n r).length = n + 1 := by
  unfold newRow
  by_cases hr : r < n
  · rw [if_pos hr]
    have h1 : (r + 1) * n ≤ n * n := Nat.mul_le_mul_right n hr
    have h2 : (r + 1) * n = r * n + n := by ring
    simp only [List.length_append, List.length_take, List.length_drop, hlen,
      List.length_cons, List.length_nil]
    omega
  · rw [if_neg hr, List.length_replicate]

theorem length_flatten_uniform {L : List (List ℕ)} {k : ℕ}
    (h : ∀ l ∈ L, l.length = k) : L.flatten.length = L.length * k := by
  induction L with
  | nil => simp
  | cons l L ih =>
    simp only [List.flatten_cons, List.length_append, List.length_cons]
    rw [h l (List.mem_cons_self l L), ih fun x hx => h x (List.mem_cons_of_mem l hx)]
    ring

theorem getElem?_flatten_uniform {L : List (List ℕ)} {k : ℕ}
    (h : ∀ l ∈ L, l.length = k) :
    ∀ {r c : ℕ}, r < L.length → c < k → L.flatten[r * k + c]? = (L.getD r [])[c]? := by
  induction L with
  | nil => intro r c hr _; simp at hr
  | cons l L ih =>
    intro r c hr hc
    have hl : l.length = k := h l (List.mem_cons_self l L)
    match r with
    | 0 =>
      simp only [Nat.zero_mul, Nat.zero_add, List.flatten_cons, List.getElem?_append,
        List.getD_cons_zero]
      rw [if_pos (hl ▸ hc)]
    | r + 1 =>
      have harith : (r + 1) * k + c = l.length + (r * k + c) := by
        rw [hl]; ring
      simp only [List.flatten_cons, List.getD_cons_succ]
      rw [harith, List.getElem?_append]
      rw [if_neg (by omega)]
      have : l.length + (r * k + c) - l.length = r * k + c := by omega
      rw [this]
      exact ih (fun x hx => h x (List.mem_cons_of_mem l hx))
        (by simp only [List.length_cons] at hr; omega) hc

theorem add_node_rows_getD {g : GraphMat} {r : ℕ} (hr : r < g.node_count + 1) :
    ((List.range (g.node_count + 1)).map (newRow g.links g.node_count)).getD r []
      = newRow g.links g.node_count r := by
  rw [List.getD_eq_getElem?_getD, List.getElem?_map, List.getElem?_range hr]
  rfl

theorem length_add_node {g : GraphMat} (hlen : g.links.length = g.node_count * g.node_count) :
    (g.add_node).1.links.length = (g.node_count + 1) * (g.node_count + 1) := by
  show (((List.range (g.node_count + 1)).map (newRow g.links g.node_count)).flatten).length = _
  rw [length_flatten_uniform (k := g.node_count + 1), List.length_map, List.length_range]
  intro l hl
  rw [List.mem_map] at hl
  obtain ⟨r, _, rfl⟩ := hl
  exact length_newRow hlen r

theorem cellAt_add_node {g : GraphMat} (hlen : g.links.length = g.node_count * g.node_count)
    {r c : ℕ} (hr : r < g.node_count + 1) (hc : c < g.node_count + 1) :
    cellAt (g.add_node).1 r c =
      if r < g.node_count ∧ c < g.node_count then cellAt g r c else 0 := by
  have hrows : ∀ l ∈ (List.range (g.node_count + 1)).map (newRow g.links g.node_count),
      l.length = g.node_count + 1 := by
    intro l hl
    rw [List.mem_map] at hl
    obtain ⟨i, _, rfl⟩ := hl
    exact length_newRow hlen i
  have hflat := getElem?_flatten_uniform hrows
    (r := r) (c := c) (by simpa using hr) hc
  have hcell : cellAt (g.add_node).1 r c
      = ((newRow g.links g.node_count r)[c]?).getD 0 := by
    unfold cellAt
    show ((((List.range (g.node_count + 1)).map
        (newRow g.links g.node_count)).flatten).getD (r * (g.node_count + 1) + c) 0) = _
    rw [List.getD_eq_getElem?_getD, hflat, add_node_rows_getD hr]
  rw [hcell]
  unfold newRow
  by_cases h1 : r < g.node_count
  · rw [if_pos h1]
    by_cases h2 : c < g.node_count
    · rw [if_pos (by exact ⟨h1, h2⟩)]
      have hdroplen : ((g.links.drop (r * g.node_count)).take g.node_count).length
          = g.node_count := by
        have ha : (r + 1) * g.node_count ≤ g.node_count * g.node_count :=
          Nat.mul_le_mul_right _ h1
        have hb : (r + 1) * g.node_count = r * g.node_count + g.node_count := by ring
        simp only [List.length_take, List.length_drop, hlen]
        omega
      rw [List.getElem?_append, if_pos (by omega), List.getElem?_take, if_pos h2,
        List.getElem?_drop]
      unfold cellAt
      rw [List.getD_eq_getElem?_getD, Nat.add_comm (r * g.node_count) c, Nat.add_comm]
    · rw [if_neg (by tauto)]
      have hcn : c = g.node_count := by omega
      have hdroplen : ((g.links.drop (r * g.node_count)).take g.node_count).length
          = g.node_count := by
        have ha : (r + 1) * g.node_count ≤ g.node_count * g.node_count :=
          Nat.mul_le_mul_right _ h1
        have hb : (r + 1) * g.node_count = r * g.node_count + g.node_count := by ring
        simp only [List.length_take, List.length_drop, hlen]
        omega
      rw [List.getElem?_append, if_neg (by omega)]
      subst hcn
      rw [hdroplen, Nat.sub_self]
      rfl
  · rw [if_neg h1, if_neg (by tauto), List.getElem?_replicate, if_pos hc]
    rfl

theorem add_node_fst_node_count (g : GraphMat) :
    (g.add_node).1.node_count = g.node_count + 1 := rfl

theorem add_node_snd (g : GraphMat) : (g.add_node).2 = g.node_count := rfl

theorem add_edge_eq_some {g : GraphMat} {a b w : ℕ}
    (hlen : g.links.length = g.node_count * g.node_count)
    (ha : a < g.node_count) (hb : b < g.node_count) :
    g.add_edge a b w =
      some ⟨g.node_count,
        (g.links.set (a * g.node_count + b) w).set (b * g.node_count + a) w⟩ := by
  have h1 : a * g.node_count + b < g.links.length := by
    rw [hlen]; exact mul_add_lt_mul ha hb
  have h2 : b * g.node_count + a < g.links.length := by
    rw [hlen]; exact mul_add_lt_mul hb ha
  unfold GraphMat.add_edge setW
  rw [if_pos h1, Option.some_bind, if_pos (by rw [List.length_set]; exact h2)]
  rfl

theorem add_edge_eq_none {g : GraphMat} {a b w : ℕ}
    (hlen : g.links.length = g.node_count * g.node_count)
    (h : g.node_count ≤ a ∨ g.node_count ≤ b) :
    g.add_edge a b w = none := by
  unfold GraphMat.add_edge setW
  rcases h with h | h
  · have : ¬ a * g.node_count + b < g.links.length := by
      have := Nat.mul_le_mul_right g.node_count h
      rw [hlen]
      omega
    rw [if_neg this]
    rfl
  · by_cases h1 : a * g.node_count + b < g.links.length
    · have : ¬ b * g.node_count + a < (g.links.set (a * g.node_count + b) w).length := by
        have := Nat.mul_le_mul_right g.node_count h
        rw [List.length_set, hlen]
        omega
      rw [if_pos h1, Option.some_bind, if_neg this]
      rfl
    · rw [if_neg h1]
      rfl

theorem cellAt_set_pair {g : GraphMat} {a b w : ℕ}
    (hlen : g.links.length = g.node_count * g.node_count)
    (ha : a < g.node_count) (hb : b < g.node_count)
    {r c : ℕ} (hr : r < g.node_count) (hc : c < g.node_count) :
    cellAt ⟨g.node_count,
        (g.links.set (a * g.node_count + b) w).set (b * g.node_count + a) w⟩ r c =
      if (r = a ∧ c = b) ∨ (r = b ∧ c = a) then w else cellAt g r c := by
  have hidx1 : a * g.node_count + b < g.links.length := by
    rw [hlen]; exact mul_add_lt_mul ha hb
  have hidx2 : b * g.node_count + a < g.links.length := by
    rw [hlen]; exact mul_add_lt_mul hb ha
  unfold cellAt
  simp only
  by_cases h2 : r = b ∧ c = a
  · obtain ⟨rfl, rfl⟩ := h2
    rw [if_pos (Or.inr ⟨rfl, rfl⟩), List.getD_eq_getElem?_getD,
      List.getElem?_set_self (by rw [List.length_set]; exact hidx2)]
    rfl
  · have hne2 : b * g.node_count + a ≠ r * g.node_count + c := by
      intro hcontra
      rw [idx_inj ha hc] at hcontra
      exact h2 ⟨hcontra.1.symm, hcontra.2.symm⟩
    rw [List.getD_eq_getElem?_getD, List.getElem?_set_ne hne2]
    by_cases h1 : r = a ∧ c = b
    · obtain ⟨rfl, rfl⟩ := h1
      rw [if_pos (Or.inl ⟨rfl, rfl⟩), List.getElem?_set_self hidx1]
      rfl
    · have hne1 : a * g.node_count + b ≠ r * g.node_count + c := by
        intro hcontra
        rw [idx_inj hb hc] at hcontra
        exact h1 ⟨hcontra.1.symm, hcontra.2.symm⟩
      rw [List.getElem?_set_ne hne1, if_neg (by tauto), List.getD_eq_getElem?_getD]

theorem add_edge_eq_some2 {n : ℕ} {l : List ℕ} {a b w : ℕ}
    (hlen : l.length = n * n) (ha : a < n) (hb : b < n) :
    (GraphMat.mk n l).add_edge a b w
      = some (GraphMat.mk n ((l.set (a * n + b) w).set (b * n + a) w)) :=
  add_edge_eq_some (g := GraphMat.mk n l) hlen ha hb

theorem cellAt_set_pair2 {n : ℕ} {l : List ℕ} {a b w : ℕ}
    (hlen : l.length = n * n) (ha : a < n) (hb : b < n)
    {r c : ℕ} (hr : r < n) (hc : c < n) :
    cellAt (GraphMat.mk n ((l.set (a * n + b) w).set (b * n + a) w)) r c =
      if (r = a ∧ c = b) ∨ (r = b ∧ c = a) then w else cellAt (GraphMat.mk n l) r c :=
  cellAt_set_pair (g := GraphMat.mk n l) hlen ha hb hr hc

theorem get_edge_weight_eq_cellAt {g : GraphMat} {a b : ℕ}
    (hlen : g.links.length = g.node_count * g.node_count)
    (ha : a < g.node_count) (hb : b < g.node_count) :
    g.get_edge_weight a b =
      if cellAt g a b = 0 then none else some (cellAt g a b) := by
  have hidx : a * g.node_count + b < g.links.length := by
    rw [hlen]; exact mul_add_lt_mul ha hb
  unfold GraphMat.get_edge_weight cellAt
  rw [List.getD_eq_getElem?_getD, List.getElem?_eq_getElem hidx]
  rfl

theorem get_edge_weight_none_of_le {g : GraphMat} {a b : ℕ}
    (h : g.links.length ≤ a * g.node_count + b) :
    g.get_edge_weight a b = none := by
  unfold GraphMat.get_edge_weight
  rw [List.getElem?_eq_none h]

theorem mem_matEdgesMain {g : GraphMat}
    (hlen : g.links.length = g.node_count * g.node_count) {u v w : ℕ} :
    (u, v, w) ∈ matEdgesMain g ↔
      u ≤ v ∧ v < g.node_count ∧ cellAt g u v = w ∧ w ≠ 0 := by
  unfold matEdgesMain
  rw [mem_collectSet, List.mem_filterMap]
  constructor
  · rintro ⟨p, hp, hpsome⟩
    rw [List.mem_filter] at hp
    obtain ⟨hpenum, hpw⟩ := hp
    rw [List.mem_enum_iff_getElem?] at hpenum
    rw [decide_eq_true_eq] at hpw
    by_cases hlt : p.1 % g.node_count < p.1 / g.node_count
    · rw [if_pos hlt] at hpsome
      exact absurd hpsome (by simp)
    · rw [if_neg hlt] at hpsome
      have hieq : p.1 < g.links.length := (List.getElem?_eq_some_iff.1 hpenum).1
      have hn : 0 < g.node_count := by
        rcases Nat.eq_zero_or_pos g.node_count with h0 | h0
        · rw [h0, Nat.mul_zero] at hlen; omega
        · exact h0
      obtain ⟨heq1, heq2, heq3⟩ : p.1 / g.node_count = u ∧ p.1 % g.node_count = v ∧ p.2 = w := by
        have := Option.some.inj hpsome
        rw [Prod.ext_iff, Prod.ext_iff] at this
        exact ⟨this.1, this.2.1, this.2.2⟩
      refine ⟨by omega, ?_, ?_, by omega⟩
      · rw [← heq2]; exact Nat.mod_lt _ hn
      · unfold cellAt
        have hidx : u * g.node_count + v = p.1 := by
          rw [← heq1, ← heq2, Nat.mul_comm, Nat.div_add_mod]
        rw [hidx, List.getD_eq_getElem?_getD, hpenum]
        exact heq3
  · rintro ⟨huv, hv, hcell, hw⟩
    have hu : u < g.node_count := Nat.lt_of_le_of_lt huv hv
    have hn : 0 < g.node_count := by omega
    have hidx : u * g.node_count + v < g.links.length := by
      rw [hlen]; exact mul_add_lt_mul hu hv
    refine ⟨(u * g.node_count + v, w), ?_, ?_⟩
    · rw [List.mem_filter, List.mem_enum_iff_getElem?]
      constructor
      · unfold cellAt at hcell
        rw [List.getD_eq_getElem?_getD, List.getElem?_eq_getElem hidx] at hcell
        simp only [Option.getD_some] at hcell
        rw [List.getElem?_eq_getElem hidx, hcell]
      · rw [decide_eq_true_eq]
        omega
    · have hdiv : (u * g.node_count + v) / g.node_count = u := by
        rw [Nat.mul_comm, Nat.mul_add_div hn, Nat.div_eq_of_lt hv, Nat.add_zero]
      have hmod : (u * g.node_count + v) % g.node_count = v := by
        rw [Nat.mul_comm, Nat.mul_add_mod, Nat.mod_eq_of_lt hv]
      simp only [hdiv, hmod]
      rw [if_neg (by omega)]

/-!  Adjacency-list graph of `lib.rs`: `next_node : Node` plus
`node_edges : BTreeMap<Node, Vec<Edge>>`.  The `BTreeMap` is modelled
as an association list sorted by key (its iteration order). -/

/-- Lookup in the key-sorted association list modelling
`BTreeMap<Node, Vec<Edge>>`. -/
def mapGet (k : ℕ) : List (ℕ × List Edge) → Option (List Edge)
  | [] => none
  | p :: ps => if p.1 = k then some p.2 else mapGet k ps

/-- Model of `BTreeMap::insert`: place the binding at its sorted key
position, replacing the value when the key is already present.  It also
models the in-place update through `get_mut` (same resulting map). -/
def mapInsert (k : ℕ) (v : List Edge) : List (ℕ × List Edge) → List (ℕ × List Edge)
  | [] => [(k, v)]
  | p :: ps =>
    if k < p.1 then (k, v) :: p :: ps
    else if k = p.1 then (k, v) :: ps
    else p :: mapInsert k v ps

/-- Model of `struct GraphAdj` from `lib.rs`. -/
structure GraphAdjLib where
  next_node : ℕ
  node_edges : List (ℕ × List Edge)
deriving DecidableEq, Repr

/-- Value of `GraphAdj::default()` in `lib.rs`. -/
def adjLibEmpty : GraphAdjLib := ⟨0, []⟩

/-- Model of `GraphAdj::add_node` from `lib.rs`: bind the next id to an
empty edge list and increment `next_node`, returning the id. -/
def GraphAdjLib.add_node (g : GraphAdjLib) : GraphAdjLib × ℕ :=
  (⟨g.next_node + 1, mapInsert g.next_node [] g.node_edges⟩, g.next_node)

/-- Model of the loop body of `GraphAdj::add_edge` from `lib.rs` acting
on one incidence list: `iter_mut().find(|e| e.1 == b)` updates the
weight of the first edge whose second component is `b`, and otherwise
the triple `(a, b, weight)` is pushed at the end. -/
def updEdges (l : List Edge) (a b w : ℕ) : List Edge :=
  match l with
  | [] => [(a, b, w)]
  | e :: rest => if e.2.1 = b then (e.1, e.2.1, w) :: rest else e :: updEdges rest a b w

/-- Model of `GraphAdj::add_edge` from `lib.rs`: for `(a, b)` and then
`(b, a)`, look up the endpoint's list — panicking (`none`) when the node
is absent — and update-or-push the triple.  The second iteration sees
the map produced by the first. -/
def GraphAdjLib.add_edge (g : GraphAdjLib) (a b w : ℕ) : Option GraphAdjLib :=
  (mapGet a g.node_edges).bind fun la =>
    (mapGet b (mapInsert a (updEdges la a b w) g.node_edges)).map fun lb =>
      ⟨g.next_node, mapInsert b (updEdges lb b a w) (mapInsert a (updEdges la a b w) g.node_edges)⟩

/-- Model of `GraphAdj::edges` from `lib.rs`: flatten the map's values
(in key order) and collect into a `BTreeSet`. -/
def GraphAdjLib.edges (g : GraphAdjLib) : List Edge :=
  collectSet ((g.node_edges.map (fun p => p.2)).flatten)

/-- Model of `GraphAdj::node_count` from `lib.rs`: `node_edges.len()`. -/
def GraphAdjLib.node_count (g : GraphAdjLib) : ℕ :=
  g.node_edges.length

/-- Model of the trait-default `Graph::get_edge_weight` from `lib.rs`,
used by `GraphAdj`: scan `edges()` for the first triple whose first two
components are `(a, b)` and return its weight. -/
def GraphAdjLib.get_edge_weight (g : GraphAdjLib) (a b : ℕ) : Option ℕ :=
  (g.edges.find? fun e => decide (e.1 = a) && decide (e.2.1 = b)).map fun e => e.2.2

/-!  Adjacency-list graph of `main.rs`: `next_node : Node`, a
`BTreeSet<Node>` of nodes and a flat `BTreeSet<Edge>`. -/

/-- Sorted-set insertion for the `BTreeSet<Node>` field of `main.rs`. -/
def insertNat (x : ℕ) : List ℕ → List ℕ
  | [] => [x]
  | y :: ys => if x < y then x :: y :: ys else if x = y then y :: ys else y :: insertNat x ys

/-- Model of `struct GraphAdj` from `main.rs`. -/
structure GraphAdjMain where
  next_node : ℕ
  nodes : List ℕ
  node_edges : List Edge
deriving DecidableEq, Repr

/-- Value of `GraphAdj::default()` in `main.rs`. -/
def adjMainEmpty : GraphAdjMain := ⟨0, [], []⟩

/-- Model of `GraphAdj::add_node` from `main.rs`: insert the next id into
the node set and increment `next_node`, returning the id. -/
def GraphAdjMain.add_node (g : GraphAdjMain) : GraphAdjMain × ℕ :=
  (⟨g.next_node + 1, insertNat g.next_node g.nodes, g.node_edges⟩, g.next_node)

/-- Model of `GraphAdj::add_edge` from `main.rs`: insert the oriented
triple `(a, b, weight)` into the `BTreeSet<Edge>`.  There is no node
check and no lookup of an existing edge for the pair, and the call never
fails. -/
def GraphAdjMain.add_edge (g : GraphAdjMain) (a b w : ℕ) : Option GraphAdjMain :=
  some ⟨g.next_node, g.nodes, insertEdge (a, b, w) g.node_edges⟩

/-- Model of `GraphAdj::edges` from `main.rs`: clone the stored set. -/
def GraphAdjMain.edges (g : GraphAdjMain) : List Edge :=
  g.node_edges

/-!  The `Graph` trait, the builder `fill_graph` (textually identical in
both files) and generic graph-building operation sequences. -/

/-- Model of the `Graph` trait operations used through
`&mut dyn Graph`: `add_node` returns the fresh id, `add_edge` may panic
(`none`). -/
class GraphC (σ : Type) where
  add_node : σ → σ × ℕ
  add_edge : σ → ℕ → ℕ → ℕ → Option σ

instance : GraphC GraphMat where
  add_node := GraphMat.add_node
  add_edge := GraphMat.add_edge

instance : GraphC GraphAdjLib where
  add_node := GraphAdjLib.add_node
  add_edge := GraphAdjLib.add_edge

instance : GraphC GraphAdjMain where
  add_node := GraphAdjMain.add_node
  add_edge := GraphAdjMain.add_edge

/-- The `for _ in 0..vertex_count { graph.add_node(); }` loop. -/
def addNodes {σ : Type} [GraphC σ] (g : σ) : ℕ → σ
  | 0 => g
  | k + 1 => addNodes (GraphC.add_node g).1 k

/-- The edge loop of `fill_graph`: each of the selected rows must
destructure as `[a, b, weight]` (otherwise the `let ... else` panics),
and the call `graph.add_edge(a - 1, b - 1, weight)` is issued.  The
`u32` subtractions `a - 1` and `b - 1` overflow when the entry is 0,
aborting the build (debug-profile overflow check); this is modelled as
`none`.  A panic inside `add_edge` also aborts (`none`). -/
def processEdges {σ : Type} [GraphC σ] : List (List ℕ) → σ → Option σ
  | [], g => some g
  | row :: rest, g =>
    match row with
    | [a, b, w] =>
      if a = 0 ∨ b = 0 then none
      else (GraphC.add_edge g (a - 1) (b - 1) w).bind (processEdges rest)
    | _ => none

/-- Model of `fill_graph` (textually identical in `lib.rs` and
`main.rs`): `split_first` panics on an empty input; the head row must
destructure as `[vertex_count, edge_count]`; `vertex_count` nodes are
added; then the slice `&tail[..edge_count]` — which panics when fewer
than `edge_count` rows remain — is processed by the edge loop.  The
node-adding loop precedes the slice check in the code, but a panicking
build has no observable result, so the `none` cases coincide. -/
def fill_graph {σ : Type} [GraphC σ] (input_data : List (List ℕ)) (g : σ) : Option σ :=
  match input_data with
  | [] => none
  | head :: tail =>
    match head with
    | [vertex_count, edge_count] =>
      if edge_count ≤ tail.length then
        processEdges (tail.take edge_count) (addNodes g vertex_count)
      else none
    | _ => none

/-- A graph-construction call through the public interface: `add_node`,
or `add_edge a b w`. -/
inductive Op where
  | node : Op
  | edge : ℕ → ℕ → ℕ → Op
deriving DecidableEq, Repr

/-- Run a sequence of interface calls on a matrix graph; `none` when
some `add_edge` panics. -/
def runOps : List Op → GraphMat → Option GraphMat
  | [], g => some g
  | Op.node :: rest, g => runOps rest (g.add_node).1
  | Op.edge a b w :: rest, g => (g.add_edge a b w).bind (runOps rest)

/-- Checks that every `add_edge` call of the sequence uses previously
created nodes and a weight of at least 1, starting from a graph with
`n` nodes. -/
def validOps : List Op → ℕ → Bool
  | [], _ => true
  | Op.node :: rest, n => validOps rest (n + 1)
  | Op.edge a b w :: rest, n =>
    decide (a < n) && decide (b < n) && decide (1 ≤ w) && validOps rest n

/-- Whether the sequence contains an `add_edge` call between `p` and `q`
(in either argument order). -/
def pairInOps (p q : ℕ) : List Op → Bool
  | [] => false
  | Op.node :: rest => pairInOps p q rest
  | Op.edge a b _ :: rest =>
    ((decide (a = p) && decide (b = q)) || (decide (a = q) && decide (b = p)))
      || pairInOps p q rest

theorem runOps_inv : ∀ (ops : List Op) (g : GraphMat),
    validOps ops g.node_count = true →
    g.links.length = g.node_count * g.node_count →
    (∀ p q, p < g.node_count → q < g.node_count → cellAt g p q = cellAt g q p) →
    ∃ g2, runOps ops g = some g2 ∧
      g.node_count ≤ g2.node_count ∧
      g2.links.length = g2.node_count * g2.node_count ∧
      (∀ p q, p < g2.node_count → q < g2.node_count → cellAt g2 p q = cellAt g2 q p) ∧
      (∀ p q, p < g2.node_count → q < g2.node_count →
        (cellAt g2 p q ≠ 0 ↔ (pairInOps p q ops = true ∨
          (p < g.node_count ∧ q < g.node_count ∧ cellAt g p q ≠ 0)))) := by
  intro ops
  induction ops with
  | nil =>
    intro g _ hlen hsymm
    refine ⟨g, rfl, Nat.le_refl _, hlen, hsymm, ?_⟩
    intro p q hp hq
    simp only [pairInOps, Bool.false_eq_true, false_or]
    tauto
  | cons op rest ih =>
    intro g hvalid hlen hsymm
    match op with
    | Op.node =>
      have hvalid1 : validOps rest ((g.add_node).1.node_count) = true := by
        rw [add_node_fst_node_count]
        exact hvalid
      have hlen1 : (g.add_node).1.links.length
          = (g.add_node).1.node_count * (g.add_node).1.node_count := by
        rw [add_node_fst_node_count]
        exact length_add_node hlen
      have hcell1 : ∀ p q, p < g.node_count + 1 → q < g.node_count + 1 →
          cellAt (g.add_node).1 p q
            = if p < g.node_count ∧ q < g.node_count then cellAt g p q else 0 :=
        fun p q hp hq => cellAt_add_node hlen hp hq
      have hsymm1 : ∀ p q, p < (g.add_node).1.node_count → q < (g.add_node).1.node_count →
          cellAt (g.add_node).1 p q = cellAt (g.add_node).1 q p := by
        rw [add_node_fst_node_count]
        intro p q hp hq
        rw [hcell1 p q hp hq, hcell1 q p hq hp]
        by_cases hpq : p < g.node_count ∧ q < g.node_count
        · rw [if_pos hpq, if_pos (by tauto)]
          exact hsymm p q hpq.1 hpq.2
        · rw [if_neg hpq, if_neg (by tauto)]
      obtain ⟨g2, hrun, hle, hlen2, hsymm2, hchar⟩ := ih (g.add_node).1 hvalid1 hlen1 hsymm1
      refine ⟨g2, hrun, ?_, hlen2, hsymm2, ?_⟩
      · rw [add_node_fst_node_count] at hle
        omega
      · intro p q hp hq
        rw [hchar p q hp hq]
        show _ ∨ _ ↔ pairInOps p q (Op.node :: rest) = true ∨ _
        have hpair : pairInOps p q (Op.node :: rest) = pairInOps p q rest := rfl
        rw [hpair]
        constructor
        · rintro (h | ⟨hp1, hq1, hc1⟩)
          · exact Or.inl h
          · rw [add_node_fst_node_count] at hp1 hq1
            rw [hcell1 p q hp1 hq1] at hc1
            by_cases hpq : p < g.node_count ∧ q < g.node_count
            · rw [if_pos hpq] at hc1
              exact Or.inr ⟨hpq.1, hpq.2, hc1⟩
            · rw [if_neg hpq] at hc1
              exact absurd rfl hc1
        · rintro (h | ⟨hp1, hq1, hc1⟩)
          · exact Or.inl h
          · refine Or.inr ⟨?_, ?_, ?_⟩
            · rw [add_node_fst_node_count]; omega
            · rw [add_node_fst_node_count]; omega
            · rw [hcell1 p q (by omega) (by omega), if_pos ⟨hp1, hq1⟩]
              exact hc1
    | Op.edge a b w =>
      have hv : a < g.node_count ∧ b < g.node_count ∧ 1 ≤ w
          ∧ validOps rest g.node_count = true := by
        have := hvalid
        simp only [validOps, Bool.and_eq_true, decide_eq_true_eq] at this
        tauto
      obtain ⟨ha, hb, hw, hrest⟩ := hv
      have hsome := add_edge_eq_some (w := w) hlen ha hb
      set gE : GraphMat :=
        ⟨g.node_count,
          (g.links.set (a * g.node_count + b) w).set (b * g.node_count + a) w⟩ with hgE
      have hcount : gE.node_count = g.node_count := rfl
      have hlenE : gE.links.length = gE.node_count * gE.node_count := by
        show ((g.links.set _ _).set _ _).length = _
        rw [List.length_set, List.length_set, hlen]
      have hcellE : ∀ r c, r < g.node_count → c < g.node_count →
          cellAt gE r c = if (r = a ∧ c = b) ∨ (r = b ∧ c = a) then w else cellAt g r c :=
        fun r c hr hc => cellAt_set_pair hlen ha hb hr hc
      have hsymmE : ∀ p q, p < gE.node_count → q < gE.node_count →
          cellAt gE p q = cellAt gE q p := by
        rw [hcount]
        intro p q hp hq
        rw [hcellE p q hp hq, hcellE q p hq hp]
        by_cases hmatch : (p = a ∧ q = b) ∨ (p = b ∧ q = a)
        · rw [if_pos hmatch, if_pos (by tauto)]
        · rw [if_neg hmatch, if_neg (by tauto)]
          exact hsymm p q hp hq
      have hvalidE : validOps rest gE.node_count = true := by rw [hcount]; exact hrest
      obtain ⟨g2, hrun, hle, hlen2, hsymm2, hchar⟩ := ih gE hvalidE hlenE hsymmE
      refine ⟨g2, ?_, by rw [hcount] at hle; exact hle, hlen2, hsymm2, ?_⟩
      · show (g.add_edge a b w).bind (runOps rest) = some g2
        rw [hsome, Option.some_bind]
        exact hrun
      · intro p q hp hq
        rw [hchar p q hp hq]
        have hpair : pairInOps p q (Op.edge a b w :: rest)
            = (((decide (a = p) && decide (b = q)) || (decide (a = q) && decide (b = p)))
              || pairInOps p q rest) := rfl
        rw [hpair]
        simp only [Bool.or_eq_true, Bool.and_eq_true, decide_eq_true_eq]
        rw [hcount]
        by_cases hmatch : (a = p ∧ b = q) ∨ (a = q ∧ b = p)
        · have hp1 : p < g.node_count := by rcases hmatch with ⟨h1, h2⟩ | ⟨h1, h2⟩ <;> omega
          have hq1 : q < g.node_count := by rcases hmatch with ⟨h1, h2⟩ | ⟨h1, h2⟩ <;> omega
          have hcg : cellAt gE p q = w := by
            rw [hcellE p q hp1 hq1, if_pos (by tauto)]
          constructor
          · intro _; exact Or.inl (Or.inl hmatch)
          · intro _; exact Or.inr ⟨hp1, hq1, by rw [hcg]; omega⟩
        · constructor
          · rintro (h | ⟨hp1, hq1, hc1⟩)
            · exact Or.inl (Or.inr h)
            · rw [hcellE p q hp1 hq1, if_neg (by tauto)] at hc1
              exact Or.inr ⟨hp1, hq1, hc1⟩
          · rintro (h | ⟨hp1, hq1, hc1⟩)
            · rcases h with h | h
              · exact absurd h hmatch
              · exact Or.inl h
            · refine Or.inr ⟨hp1, hq1, ?_⟩
              rw [hcellE p q hp1 hq1, if_neg (by tauto)]
              exact hc1

/-!  Lemmas about the `BTreeMap` model and `GraphAdj::add_edge` of
`lib.rs`. -/

/-- Well-formedness of a `lib.rs` adjacency graph, maintained by the
interface: keys are strictly sorted (`BTreeMap` invariant), every edge
stored under key `k` has first component `k`, and the partner nodes in
one incidence list are pairwise distinct. -/
def AdjWF (g : GraphAdjLib) : Prop :=
  g.node_edges.Pairwise (fun p q => p.1 < q.1) ∧
  (∀ kl ∈ g.node_edges, ∀ e ∈ kl.2, e.1 = kl.1) ∧
  (∀ kl ∈ g.node_edges, (kl.2.map fun e => e.2.1).Nodup)

instance (g : GraphAdjLib) : Decidable (AdjWF g) := by
  unfold AdjWF
  infer_instance

theorem mapGet_mapInsert_self (k : ℕ) (v : List Edge) (m : List (ℕ × List Edge)) :
    mapGet k (mapInsert k v m) = some v := by
  induction m with
  | nil => simp [mapInsert, mapGet]
  | cons p ps ih =>
    unfold mapInsert
    by_cases h1 : k < p.1
    · rw [if_pos h1]
      unfold mapGet
      rw [if_pos rfl]
    · rw [if_neg h1]
      by_cases h2 : k = p.1
      · rw [if_pos h2]
        unfold mapGet
        rw [if_pos rfl]
      · rw [if_neg h2]
        unfold mapGet
        rw [if_neg (by omega)]
        exact ih

theorem mapGet_mapInsert_ne {k2 k : ℕ} (hne : k2 ≠ k) (v : List Edge)
    (m : List (ℕ × List Edge)) :
    mapGet k2 (mapInsert k v m) = mapGet k2 m := by
  induction m with
  | nil =>
    simp only [mapInsert, mapGet]
    rw [if_neg (by omega)]
  | cons p ps ih =>
    simp only [mapInsert]
    by_cases h1 : k < p.1
    · rw [if_pos h1]
      simp only [mapGet]
      rw [if_neg (by omega)]
    · rw [if_neg h1]
      by_cases h2 : k = p.1
      · rw [if_pos h2]
        simp only [mapGet]
        rw [if_neg (by omega), if_neg (by omega)]
      · rw [if_neg h2]
        simp only [mapGet]
        by_cases h3 : p.1 = k2
        · rw [if_pos h3, if_pos h3]
        · rw [if_neg h3, if_neg h3]
          exact ih

theorem mem_mapInsert_weak {kl : ℕ × List Edge} {k : ℕ} {v : List Edge}
    {m : List (ℕ × List Edge)} (h : kl ∈ mapInsert k v m) :
    kl = (k, v) ∨ kl ∈ m := by
  induction m with
  | nil => simpa [mapInsert] using h
  | cons p ps ih =>
    unfold mapInsert at h
    by_cases h1 : k < p.1
    · rw [if_pos h1] at h
      rcases List.mem_cons.1 h with h | h
      · exact Or.inl h
      · exact Or.inr h
    · rw [if_neg h1] at h
      by_cases h2 : k = p.1
      · rw [if_pos h2] at h
        rcases List.mem_cons.1 h with h | h
        · exact Or.inl h
        · exact Or.inr (List.mem_cons_of_mem p h)
      · rw [if_neg h2] at h
        rcases List.mem_cons.1 h with h | h
        · exact Or.inr (h ▸ List.mem_cons_self p ps)
        · rcases ih h with h | h
          · exact Or.inl h
          · exact Or.inr (List.mem_cons_of_mem p h)

theorem pairwise_mapInsert {k : ℕ} {v : List Edge} {m : List (ℕ × List Edge)}
    (hsort : m.Pairwise (fun p q => p.1 < q.1)) :
    (mapInsert k v m).Pairwise (fun p q => p.1 < q.1) := by
  induction m with
  | nil => simp [mapInsert]
  | cons p ps ih =>
    rw [List.pairwise_cons] at hsort
    obtain ⟨hp, hps⟩ := hsort
    unfold mapInsert
    by_cases h1 : k < p.1
    · rw [if_pos h1]
      refine List.pairwise_cons.2 ⟨?_, List.pairwise_cons.2 ⟨hp, hps⟩⟩
      intro q hq
      rcases List.mem_cons.1 hq with rfl | hq
      · exact h1
      · exact Nat.lt_trans h1 (hp q hq)
    · rw [if_neg h1]
      by_cases h2 : k = p.1
      · rw [if_pos h2]
        refine List.pairwise_cons.2 ⟨?_, hps⟩
        intro q hq
        rw [h2]
        exact hp q hq
      · rw [if_neg h2]
        refine List.pairwise_cons.2 ⟨?_, ih hps⟩
        intro q hq
        rcases mem_mapInsert_weak hq with rfl | hq
        · omega
        · exact hp q hq

theorem mem_mapInsert_sorted {kl : ℕ × List Edge} {k : ℕ} {v : List Edge}
    {m : List (ℕ × List Edge)} (hsort : m.Pairwise (fun p q => p.1 < q.1))
    (h : kl ∈ mapInsert k v m) :
    kl = (k, v) ∨ (kl ∈ m ∧ kl.1 ≠ k) := by
  induction m with
  | nil => simpa [mapInsert] using h
  | cons p ps ih =>
    rw [List.pairwise_cons] at hsort
    obtain ⟨hp, hps⟩ := hsort
    unfold mapInsert at h
    by_cases h1 : k < p.1
    · rw [if_pos h1] at h
      rcases List.mem_cons.1 h with h | h
      · exact Or.inl h
      · refine Or.inr ⟨h, ?_⟩
        rcases List.mem_cons.1 h with rfl | h
        · omega
        · have := hp kl h
          omega
    · rw [if_neg h1] at h
      by_cases h2 : k = p.1
      · rw [if_pos h2] at h
        rcases List.mem_cons.1 h with h | h
        · exact Or.inl h
        · refine Or.inr ⟨List.mem_cons_of_mem p h, ?_⟩
          have := hp kl h
          omega
      · rw [if_neg h2] at h
        rcases List.mem_cons.1 h with h | h
        · subst h
          exact Or.inr ⟨List.mem_cons_self _ _, by omega⟩
        · rcases ih hps h with h | ⟨hm, hk⟩
          · exact Or.inl h
          · exact Or.inr ⟨List.mem_cons_of_mem p hm, hk⟩

theorem mapGet_mem {k : ℕ} {v : List Edge} {m : List (ℕ × List Edge)}
    (h : mapGet k m = some v) : (k, v) ∈ m := by
  induction m with
  | nil => simp [mapGet] at h
  | cons p ps ih =>
    unfold mapGet at h
    by_cases h1 : p.1 = k
    · rw [if_pos h1] at h
      have hpkv : p = (k, v) := Prod.ext h1 (Option.some.inj h)
      rw [← hpkv]
      exact List.mem_cons_self p ps
    · rw [if_neg h1] at h
      exact List.mem_cons_of_mem p (ih h)

theorem mapGet_of_mem_sorted {kl : ℕ × List Edge} {m : List (ℕ × List Edge)}
    (hsort : m.Pairwise (fun p q => p.1 < q.1)) (h : kl ∈ m) :
    mapGet kl.1 m = some kl.2 := by
  induction m with
  | nil => simp at h
  | cons p ps ih =>
    rw [List.pairwise_cons] at hsort
    obtain ⟨hp, hps⟩ := hsort
    rcases List.mem_cons.1 h with rfl | h
    · unfold mapGet
      rw [if_pos rfl]
    · unfold mapGet
      rw [if_neg (by have := hp kl h; omega)]
      exact ih hps h

theorem updEdges_fst {l : List Edge} {k b w : ℕ} (hfst : ∀ e ∈ l, e.1 = k) :
    ∀ e ∈ updEdges l k b w, e.1 = k := by
  induction l with
  | nil =>
    intro e he
    simp only [updEdges, List.mem_singleton] at he
    rw [he]
  | cons e0 rest ih =>
    intro e he
    unfold updEdges at he
    by_cases h1 : e0.2.1 = b
    · rw [if_pos h1] at he
      rcases List.mem_cons.1 he with rfl | he
      · exact hfst e0 (List.mem_cons_self _ _)
      · exact hfst e (List.mem_cons_of_mem e0 he)
    · rw [if_neg h1] at he
      rcases List.mem_cons.1 he with rfl | he
      · exact hfst e (List.mem_cons_self _ _)
      · exact ih (fun x hx => hfst x (List.mem_cons_of_mem e0 hx)) e he

theorem mem_updEdges_partner {l : List Edge} {k b w : ℕ} {x : ℕ}
    (h : x ∈ (updEdges l k b w).map fun e => e.2.1) :
    x ∈ (l.map fun e => e.2.1) ∨ x = b := by
  induction l with
  | nil =>
    simp only [updEdges, List.map_cons, List.map_nil, List.mem_singleton] at h
    exact Or.inr h
  | cons e0 rest ih =>
    unfold updEdges at h
    by_cases h1 : e0.2.1 = b
    · rw [if_pos h1] at h
      simp only [List.map_cons, List.mem_cons] at h ⊢
      tauto
    · rw [if_neg h1] at h
      simp only [List.map_cons, List.mem_cons] at h ⊢
      rcases h with h | h
      · exact Or.inl (Or.inl h)
      · rcases ih h with h | h
        · exact Or.inl (Or.inr h)
        · exact Or.inr h

theorem updEdges_partners_nodup {l : List Edge} {k b w : ℕ}
    (hnd : (l.map fun e => e.2.1).Nodup) :
    ((updEdges l k b w).map fun e => e.2.1).Nodup := by
  induction l with
  | nil => simp [updEdges]
  | cons e0 rest ih =>
    simp only [List.map_cons, List.nodup_cons] at hnd
    obtain ⟨hni, hnd0⟩ := hnd
    unfold updEdges
    by_cases h1 : e0.2.1 = b
    · rw [if_pos h1]
      simp only [List.map_cons, List.nodup_cons]
      exact ⟨hni, hnd0⟩
    · rw [if_neg h1]
      simp only [List.map_cons, List.nodup_cons]
      refine ⟨?_, ih hnd0⟩
      intro hcontra
      rcases mem_updEdges_partner hcontra with h | h
      · exact hni h
      · exact h1 h

theorem mem_updEdges_partner_eq {l : List Edge} {k b w : ℕ}
    (hfst : ∀ e ∈ l, e.1 = k) (hnd : (l.map fun e => e.2.1).Nodup) :
    ∀ e ∈ updEdges l k b w, e.2.1 = b → e = (k, b, w) := by
  induction l with
  | nil =>
    intro e he _
    simpa [updEdges] using he
  | cons e0 rest ih =>
    intro e he hpart
    simp only [List.map_cons, List.nodup_cons] at hnd
    obtain ⟨hni, hnd0⟩ := hnd
    unfold updEdges at he
    by_cases h1 : e0.2.1 = b
    · rw [if_pos h1] at he
      rcases List.mem_cons.1 he with rfl | he
      · have hf : e0.1 = k := hfst e0 (List.mem_cons_self _ _)
        rw [hf, h1]
      · exact absurd (hpart ▸ List.mem_map_of_mem (fun e => e.2.1) he) (h1 ▸ hni)
    · rw [if_neg h1] at he
      rcases List.mem_cons.1 he with rfl | he
      · exact absurd hpart h1
      · exact ih (fun x hx => hfst x (List.mem_cons_of_mem e0 hx)) hnd0 e he hpart

theorem self_mem_updEdges {l : List Edge} {k b w : ℕ}
    (hfst : ∀ e ∈ l, e.1 = k) : (k, b, w) ∈ updEdges l k b w := by
  induction l with
  | nil => simp [updEdges]
  | cons e0 rest ih =>
    unfold updEdges
    by_cases h1 : e0.2.1 = b
    · rw [if_pos h1]
      have hf : e0.1 = k := hfst e0 (List.mem_cons_self _ _)
      rw [hf, h1]
      exact List.mem_cons_self _ _
    · rw [if_neg h1]
      exact List.mem_cons_of_mem e0 (ih fun x hx => hfst x (List.mem_cons_of_mem e0 hx))

theorem mem_updEdges_of_ne {l : List Edge} {k b w : ℕ} {e : Edge}
    (he : e ∈ updEdges l k b w) (hne : e.2.1 ≠ b) : e ∈ l := by
  induction l with
  | nil =>
    simp only [updEdges, List.mem_singleton] at he
    rw [he] at hne
    exact absurd rfl hne
  | cons e0 rest ih =>
    unfold updEdges at he
    by_cases h1 : e0.2.1 = b
    · rw [if_pos h1] at he
      rcases List.mem_cons.1 he with rfl | he
      · exact absurd h1 hne
      · exact List.mem_cons_of_mem e0 he
    · rw [if_neg h1] at he
      rcases List.mem_cons.1 he with rfl | he
      · exact List.mem_cons_self _ _
      · exact List.mem_cons_of_mem e0 (ih he)

theorem find?_eq_some_of_unique {p : Edge → Bool} {x : Edge} :
    ∀ {l : List Edge}, x ∈ l → p x = true → (∀ y ∈ l, p y = true → y = x) →
      l.find? p = some x := by
  intro l
  induction l with
  | nil => intro h; simp at h
  | cons y ys ih =>
    intro hmem hx huniq
    by_cases hy : p y = true
    · rw [List.find?_cons_of_pos _ hy]
      rw [huniq y (List.mem_cons_self _ _) hy]
    · rw [List.find?_cons_of_neg _ hy]
      have hxy : x ≠ y := fun h => hy (h ▸ hx)
      have hmem2 : x ∈ ys := by
        rcases List.mem_cons.1 hmem with h | h
        · exact absurd h hxy
        · exact h
      exact ih hmem2 hx fun z hz => huniq z (List.mem_cons_of_mem y hz)

theorem filter_eq_single_of_unique {p : Edge → Bool} {x : Edge} :
    ∀ {l : List Edge}, l.Nodup → x ∈ l → p x = true →
      (∀ y ∈ l, p y = true → y = x) → l.filter p = [x] := by
  intro l
  induction l with
  | nil => intro _ h; simp at h
  | cons y ys ih =>
    intro hnd hmem hx huniq
    rw [List.nodup_cons] at hnd
    obtain ⟨hny, hnd0⟩ := hnd
    by_cases hy : p y = true
    · have hyx : y = x := huniq y (List.mem_cons_self _ _) hy
      subst hyx
      rw [List.filter_cons_of_pos hy]
      have hnone : ys.filter p = [] := by
        rw [List.filter_eq_nil_iff]
        intro z hz
        intro hpz
        exact hny (huniq z (List.mem_cons_of_mem y hz) hpz ▸ hz)
      rw [hnone]
    · rw [List.filter_cons_of_neg hy]
      have hxy : x ≠ y := fun h => hy (h ▸ hx)
      have hmem2 : x ∈ ys := by
        rcases List.mem_cons.1 hmem with h | h
        · exact absurd h hxy
        · exact h
      exact ih hnd0 hmem2 hx fun z hz => huniq z (List.mem_cons_of_mem y hz)

theorem mem_edges_lib {g : GraphAdjLib} {x : Edge} :
    x ∈ g.edges ↔ ∃ kl ∈ g.node_edges, x ∈ kl.2 := by
  unfold GraphAdjLib.edges
  rw [mem_collectSet, List.mem_flatten]
  constructor
  · rintro ⟨l, hl, hx⟩
    rw [List.mem_map] at hl
    obtain ⟨kl, hkl, rfl⟩ := hl
    exact ⟨kl, hkl, hx⟩
  · rintro ⟨kl, hkl, hx⟩
    exact ⟨kl.2, List.mem_map_of_mem (fun p => p.2) hkl, hx⟩

theorem add_edge_lib_spec {g : GraphAdjLib} {a b w : ℕ} {la lb : List Edge}
    (hwf : AdjWF g) (hla : mapGet a g.node_edges = some la)
    (hlb : mapGet b g.node_edges = some lb) :
    ∃ g2, g.add_edge a b w = some g2 ∧
      AdjWF g2 ∧
      g2.next_node = g.next_node ∧
      (∀ k, (mapGet k g2.node_edges).isSome = (mapGet k g.node_edges).isSome) ∧
      (∃ la2, mapGet a g2.node_edges = some la2 ∧
        (∀ e ∈ la2, e.2.1 = b → e = (a, b, w)) ∧ (a, b, w) ∈ la2 ∧
        (∀ e ∈ la2, e.2.1 ≠ b → e ∈ la)) ∧
      (∃ lb2, mapGet b g2.node_edges = some lb2 ∧
        (∀ e ∈ lb2, e.2.1 = a → e = (b, a, w)) ∧ (b, a, w) ∈ lb2 ∧
        (∀ e ∈ lb2, e.2.1 ≠ a → e ∈ lb)) ∧
      (a, b, w) ∈ g2.edges ∧ (b, a, w) ∈ g2.edges ∧
      (∀ x ∈ g2.edges, (x.1 = a → x.2.1 = b → x = (a, b, w))
        ∧ (x.1 = b → x.2.1 = a → x = (b, a, w))) := by
  obtain ⟨hsort, hfst, hnd⟩ := hwf
  have hmema : (a, la) ∈ g.node_edges := mapGet_mem hla
  have hmemb : (b, lb) ∈ g.node_edges := mapGet_mem hlb
  have hfsta : ∀ e ∈ la, e.1 = a := hfst (a, la) hmema
  have hfstb : ∀ e ∈ lb, e.1 = b := hfst (b, lb) hmemb
  have hnda : (la.map fun e => e.2.1).Nodup := hnd (a, la) hmema
  have hndb : (lb.map fun e => e.2.1).Nodup := hnd (b, lb) hmemb
  set la1 : List Edge := updEdges la a b w with hla1
  set m1 : List (ℕ × List Edge) := mapInsert a la1 g.node_edges with hm1
  have hsort1 : m1.Pairwise (fun p q => p.1 < q.1) := pairwise_mapInsert hsort
  have hfsta1 : ∀ e ∈ la1, e.1 = a := updEdges_fst hfsta
  have hnda1 : (la1.map fun e => e.2.1).Nodup := updEdges_partners_nodup hnda
  -- the value the second loop iteration reads for key b
  have hgetb1 : mapGet b m1 = some (if b = a then la1 else lb) := by
    by_cases hab : b = a
    · rw [if_pos hab, hab, hm1]
      exact mapGet_mapInsert_self a la1 g.node_edges
    · rw [if_neg hab, hm1, mapGet_mapInsert_ne hab]
      exact hlb
  set lbm : List Edge := if b = a then la1 else lb with hlbm
  have hfstbm : ∀ e ∈ lbm, e.1 = b := by
    by_cases hab : b = a
    · rw [hlbm, if_pos hab, hab]
      exact hfsta1
    · rw [hlbm, if_neg hab]
      exact hfstb
  have hndbm : (lbm.map fun e => e.2.1).Nodup := by
    by_cases hab : b = a
    · rw [hlbm, if_pos hab]
      exact hnda1
    · rw [hlbm, if_neg hab]
      exact hndb
  set lb2 : List Edge := updEdges lbm b a w with hlb2
  set m2 : List (ℕ × List Edge) := mapInsert b lb2 m1 with hm2
  have hsort2 : m2.Pairwise (fun p q => p.1 < q.1) := pairwise_mapInsert hsort1
  have hfstb2 : ∀ e ∈ lb2, e.1 = b := updEdges_fst hfstbm
  have hndb2 : (lb2.map fun e => e.2.1).Nodup := updEdges_partners_nodup hndbm
  have hrun : g.add_edge a b w = some ⟨g.next_node, m2⟩ := by
    unfold GraphAdjLib.add_edge
    rw [hla, Option.some_bind, ← hm1, hgetb1]
    rfl
  set g2 : GraphAdjLib := ⟨g.next_node, m2⟩ with hg2
  have hkl2 : ∀ kl ∈ m2, kl = (b, lb2) ∨ kl = (a, la1) ∨ kl ∈ g.node_edges := by
    intro kl hkl
    rcases mem_mapInsert_weak hkl with h | h
    · exact Or.inl h
    · rcases mem_mapInsert_weak h with h | h
      · exact Or.inr (Or.inl h)
      · exact Or.inr (Or.inr h)
  have hwf2 : AdjWF g2 := by
    refine ⟨hsort2, ?_, ?_⟩
    · intro kl hkl e he
      rcases hkl2 kl hkl with rfl | rfl | hmem
      · exact hfstb2 e he
      · exact hfsta1 e he
      · exact hfst kl hmem e he
    · intro kl hkl
      rcases hkl2 kl hkl with rfl | rfl | hmem
      · exact hndb2
      · exact hnda1
      · exact hnd kl hmem
  -- the incidence list of a in the final map
  have hgeta2 : mapGet a m2 = some (if b = a then lb2 else la1) := by
    by_cases hab : b = a
    · rw [if_pos hab, hm2, ← hab]
      exact mapGet_mapInsert_self b lb2 m1
    · rw [if_neg hab, hm2, mapGet_mapInsert_ne (fun h => hab h.symm), hm1]
      exact mapGet_mapInsert_self a la1 g.node_edges
  have hgetb2 : mapGet b m2 = some lb2 := mapGet_mapInsert_self b lb2 m1
  set la2 : List Edge := if b = a then lb2 else la1 with hla2def
  have hla2uniq : ∀ e ∈ la2, e.2.1 = b → e = (a, b, w) := by
    by_cases hab : b = a
    · rw [hla2def, if_pos hab]
      intro e he hpart
      have := mem_updEdges_partner_eq hfstbm hndbm e he (by rw [hpart, hab])
      rw [this, hab]
    · rw [hla2def, if_neg hab]
      exact mem_updEdges_partner_eq hfsta hnda
  have hlb2mem0 : (b, a, w) ∈ lb2 := self_mem_updEdges hfstbm
  have hla2mem : (a, b, w) ∈ la2 := by
    by_cases hab : b = a
    · rw [hla2def, if_pos hab]
      have h2 : (a, b, w) = (b, a, w) := by rw [hab]
      rw [h2]
      exact hlb2mem0
    · rw [hla2def, if_neg hab]
      exact self_mem_updEdges hfsta
  have hla2old : ∀ e ∈ la2, e.2.1 ≠ b → e ∈ la := by
    by_cases hab : b = a
    · rw [hla2def, if_pos hab]
      intro e he hpart
      have h1 : e ∈ lbm := mem_updEdges_of_ne he (by rw [hab] at hpart; exact hpart)
      rw [hlbm, if_pos hab] at h1
      exact mem_updEdges_of_ne h1 hpart
    · rw [hla2def, if_neg hab]
      intro e he hpart
      exact mem_updEdges_of_ne he hpart
  have hlb2uniq : ∀ e ∈ lb2, e.2.1 = a → e = (b, a, w) :=
    mem_updEdges_partner_eq hfstbm hndbm
  have hlb2mem : (b, a, w) ∈ lb2 := self_mem_updEdges hfstbm
  have hlb2old : ∀ e ∈ lb2, e.2.1 ≠ a → e ∈ lb := by
    intro e he hpart
    have h1 : e ∈ lbm := mem_updEdges_of_ne he hpart
    by_cases hab : b = a
    · rw [hlbm, if_pos hab] at h1
      have h2 : e ∈ la := mem_updEdges_of_ne h1 (by rw [hab]; exact hpart)
      have : la = lb := by
        rw [hab] at hlb
        exact Option.some.inj (hla.symm.trans hlb)
      exact this ▸ h2
    · rw [hlbm, if_neg hab] at h1
      exact h1
  have habw_mem : (a, b, w) ∈ g2.edges :=
    mem_edges_lib.2 ⟨(a, la2), mapGet_mem hgeta2, hla2mem⟩
  have hbaw_mem : (b, a, w) ∈ g2.edges :=
    mem_edges_lib.2 ⟨(b, lb2), mapGet_mem hgetb2, hlb2mem⟩
  refine ⟨g2, hrun, hwf2, rfl, ?_, ⟨la2, hgeta2, hla2uniq, hla2mem, hla2old⟩,
    ⟨lb2, hgetb2, hlb2uniq, hlb2mem, hlb2old⟩, habw_mem, hbaw_mem, ?_⟩
  · intro k
    by_cases hkb : k = b
    · rw [hkb]
      show (mapGet b m2).isSome = _
      rw [hgetb2, hlb]
      rfl
    · by_cases hka : k = a
      · rw [hka]
        show (mapGet a m2).isSome = _
        rw [hgeta2, hla]
        rfl
      · show (mapGet k m2).isSome = _
        rw [hm2, mapGet_mapInsert_ne hkb, hm1, mapGet_mapInsert_ne hka]
  · intro x hx
    obtain ⟨kl, hkl, hxin⟩ := mem_edges_lib.1 hx
    have hxfst : x.1 = kl.1 := hwf2.2.1 kl hkl x hxin
    constructor
    · intro hxa hxb
      have hkla : kl.1 = a := by rw [← hxfst, hxa]
      have hget : mapGet a m2 = some kl.2 := by
        rw [← hkla]
        exact mapGet_of_mem_sorted hsort2 hkl
      have hkleq : kl.2 = la2 := Option.some.inj (hget.symm.trans hgeta2)
      exact hla2uniq x (hkleq ▸ hxin) hxb
    · intro hxb hxa
      have hklb : kl.1 = b := by rw [← hxfst, hxb]
      have hget : mapGet b m2 = some kl.2 := by
        rw [← hklb]
        exact mapGet_of_mem_sorted hsort2 hkl
      have hkleq : kl.2 = lb2 := Option.some.inj (hget.symm.trans hgetb2)
      exact hlb2uniq x (hkleq ▸ hxin) hxa

theorem add_edge_lib_none {g : GraphAdjLib} {a b w : ℕ}
    (h : mapGet a g.node_edges = none ∨ mapGet b g.node_edges = none) :
    g.add_edge a b w = none := by
  unfold GraphAdjLib.add_edge
  rcases h with h | h
  · rw [h]
    rfl
  · cases hga : mapGet a g.node_edges with
    | none =>
      rfl
    | some la =>
      rw [Option.some_bind]
      have hab : b ≠ a := by
        intro hba
        rw [hba, hga] at h
        exact Option.noConfusion h
      rw [mapGet_mapInsert_ne hab, h]
      rfl

/-!  The builder: row predicates and the behaviour of `processEdges` on
each concrete graph type. -/

/-- Decoded edge triple of a row `[a, b, w]`: the 0-indexed endpoints
and the weight, exactly what `fill_graph` passes to `add_edge`. -/
def decRow (row : List ℕ) : Edge :=
  match row with
  | [a, b, w] => (a - 1, b - 1, w)
  | _ => (0, 0, 0)

/-- Whether an edge row mentions the unordered node pair `(p, q)` after
the 1-to-0-index conversion. -/
def rowMatch (row : List ℕ) (p q : ℕ) : Bool :=
  match row with
  | [a, b, _] =>
    (decide (a - 1 = p) && decide (b - 1 = q)) || (decide (a - 1 = q) && decide (b - 1 = p))
  | _ => false

/-- Weight field of an edge row. -/
def rowW (row : List ℕ) : ℕ :=
  match row with
  | [_, _, w] => w
  | _ => 0

/-- A well-formed edge row for a graph with `n` nodes: exactly three
values, both endpoints within `1..=n` (1-indexed), and a nonzero
weight. -/
def goodRow (n : ℕ) (row : List ℕ) : Bool :=
  match row with
  | [a, b, w] =>
    decide (1 ≤ a) && decide (a ≤ n) && decide (1 ≤ b) && decide (b ≤ n) && decide (1 ≤ w)
  | _ => false

/-- Whether two edge rows mention the same unordered node pair. -/
def samePair (r1 r2 : List ℕ) : Bool :=
  match r1, r2 with
  | [a1, b1, _], [a2, b2, _] =>
    (decide (a1 - 1 = a2 - 1) && decide (b1 - 1 = b2 - 1))
      || (decide (a1 - 1 = b2 - 1) && decide (b1 - 1 = a2 - 1))
  | _, _ => false

/-- An edge-row list is weight-consistent when any two rows mentioning
the same unordered pair carry the same weight. -/
def Consistent (rows : List (List ℕ)) : Prop :=
  ∀ r1 ∈ rows, ∀ r2 ∈ rows, samePair r1 r2 = true → rowW r1 = rowW r2

instance (rows : List (List ℕ)) : Decidable (Consistent rows) := by
  unfold Consistent
  infer_instance

/-- An edge row that makes the build abort on an adjacency-matrix
target: wrong arity, a zero endpoint (u32 underflow in `a - 1`), or an
endpoint past the node count (out-of-bounds write in `add_edge`). -/
def badMatRow (n : ℕ) (row : List ℕ) : Bool :=
  match row with
  | [a, b, _] => decide (a = 0) || decide (b = 0) || decide (n < a) || decide (n < b)
  | _ => true

theorem processEdges_mat {n : ℕ} : ∀ (rows : List (List ℕ)) (g : GraphMat),
    g.node_count = n → g.links.length = n * n →
    (∀ row ∈ rows, goodRow n row = true) →
    ∃ g2, processEdges rows g = some g2 ∧ g2.node_count = n ∧ g2.links.length = n * n ∧
      ∀ p q, p < n → q < n →
        cellAt g2 p q =
          rows.foldl (fun acc row => if rowMatch row p q then rowW row else acc)
            (cellAt g p q) := by
  intro rows
  induction rows with
  | nil =>
    intro g hc hl _
    exact ⟨g, rfl, hc, hl, fun p q _ _ => rfl⟩
  | cons row rest ih =>
    intro g hc hl hgood
    have hrowgood : goodRow n row = true := hgood row (List.mem_cons_self _ _)
    match row with
    | [] => simp [goodRow] at hrowgood
    | [x] => simp [goodRow] at hrowgood
    | [x, y] => simp [goodRow] at hrowgood
    | x :: y :: z :: u :: rest2 => simp [goodRow] at hrowgood
    | [a, b, w] =>
      simp only [goodRow, Bool.and_eq_true, decide_eq_true_eq] at hrowgood
      obtain ⟨⟨⟨⟨ha1, han⟩, hb1⟩, hbn⟩, hw1⟩ := hrowgood
      have hn1 : 1 ≤ n := Nat.le_trans ha1 han
      have ha' : a - 1 < n := by omega
      have hb' : b - 1 < n := by omega
      have hsome := add_edge_eq_some (g := g) (a := a - 1) (b := b - 1) (w := w)
        (by rw [hc]; exact hl) (hc ▸ ha') (hc ▸ hb')
      show ∃ g2, (if a = 0 ∨ b = 0 then none
        else (GraphC.add_edge g (a - 1) (b - 1) w).bind (processEdges rest)) = some g2 ∧ _
      rw [if_neg (by omega)]
      show ∃ g2, (g.add_edge (a - 1) (b - 1) w).bind (processEdges rest) = some g2 ∧ _
      rw [hsome, Option.some_bind]
      set gE : GraphMat :=
        ⟨g.node_count,
          (g.links.set ((a - 1) * g.node_count + (b - 1)) w).set
            ((b - 1) * g.node_count + (a - 1)) w⟩ with hgE
      have hcE : gE.node_count = n := hc
      have hlE : gE.links.length = n * n := by
        show ((g.links.set _ _).set _ _).length = n * n
        rw [List.length_set, List.length_set]
        exact hl
      obtain ⟨g2, hrun2, hc2, hl2, hcell2⟩ :=
        ih gE hcE hlE (fun r hr => hgood r (List.mem_cons_of_mem _ hr))
      refine ⟨g2, hrun2, hc2, hl2, ?_⟩
      intro p q hp hq
      rw [hcell2 p q hp hq]
      have hstep : cellAt gE p q =
          if rowMatch [a, b, w] p q then rowW [a, b, w] else cellAt g p q := by
        have := cellAt_set_pair (g := g) (w := w)
          (by rw [hc]; exact hl) (hc ▸ ha') (hc ▸ hb') (hc ▸ hp) (hc ▸ hq)
        rw [this]
        simp only [rowMatch, rowW, Bool.or_eq_true, Bool.and_eq_true, decide_eq_true_eq]
        by_cases hm : (p = a - 1 ∧ q = b - 1) ∨ (p = b - 1 ∧ q = a - 1)
        · rw [if_pos hm, if_pos (by tauto)]
        · rw [if_neg hm, if_neg (by tauto)]
      rw [List.foldl_cons, hstep]

theorem processEdges_mat_none {n : ℕ} : ∀ (rows : List (List ℕ)) (g : GraphMat),
    g.node_count = n → g.links.length = n * n →
    (processEdges rows g = none ↔ rows.any (badMatRow n) = true) := by
  intro rows
  induction rows with
  | nil =>
    intro g _ _
    simp [processEdges]
  | cons row rest ih =>
    intro g hc hl
    rw [List.any_cons]
    match row with
    | [] => simp [processEdges, badMatRow]
    | [x] => simp [processEdges, badMatRow]
    | [x, y] => simp [processEdges, badMatRow]
    | x :: y :: z :: u :: rest2 => simp [processEdges, badMatRow]
    | [a, b, w] =>
      show ((if a = 0 ∨ b = 0 then none
        else (GraphC.add_edge g (a - 1) (b - 1) w).bind (processEdges rest)) = none) ↔ _
      simp only [badMatRow, Bool.or_eq_true, decide_eq_true_eq]
      by_cases h0 : a = 0 ∨ b = 0
      · rw [if_pos h0]
        constructor
        · intro _
          tauto
        · intro _
          rfl
      · rw [if_neg h0]
        by_cases hbig : n < a ∨ n < b
        · have hnone : g.add_edge (a - 1) (b - 1) w = none := by
            apply add_edge_eq_none (by rw [hc]; exact hl)
            rw [hc]
            omega
          show ((GraphMat.add_edge g (a - 1) (b - 1) w).bind (processEdges rest) = none) ↔ _
          rw [hnone]
          simp only [Option.none_bind]
          constructor
          · intro _
            tauto
          · intro _
            trivial
        · have ha' : a - 1 < n := by omega
          have hb' : b - 1 < n := by omega
          have hsome := add_edge_eq_some (g := g) (a := a - 1) (b := b - 1) (w := w)
            (by rw [hc]; exact hl) (hc ▸ ha') (hc ▸ hb')
          show ((GraphMat.add_edge g (a - 1) (b - 1) w).bind (processEdges rest) = none) ↔ _
          rw [hsome, Option.some_bind]
          have hlE : ((g.links.set ((a - 1) * g.node_count + (b - 1)) w).set
              ((b - 1) * g.node_count + (a - 1)) w).length = n * n := by
            rw [List.length_set, List.length_set]
            exact hl
          rw [ih (GraphMat.mk g.node_count
            ((g.links.set ((a - 1) * g.node_count + (b - 1)) w).set
              ((b - 1) * g.node_count + (a - 1)) w)) hc hlE]
          constructor
          · intro h
            exact Or.inr h
          · intro h
            rcases h with h | h
            · omega
            · exact h

theorem flatten_replicate_replicate (i j : ℕ) :
    (List.replicate i (List.replicate j (0 : ℕ))).flatten = List.replicate (i * j) 0 := by
  induction i with
  | zero => simp
  | succ i ih =>
    rw [List.replicate_succ, List.flatten_cons, ih, ← List.replicate_add]
    have : j + i * j = (i + 1) * j := by ring
    rw [this]

theorem add_node_replicate (m : ℕ) :
    (GraphMat.mk m (List.replicate (m * m) 0)).add_node
      = (⟨m + 1, List.replicate ((m + 1) * (m + 1)) 0⟩, m) := by
  unfold GraphMat.add_node
  simp only
  have hmap : (List.range (m + 1)).map (newRow (List.replicate (m * m) 0) m)
      = List.replicate (m + 1) (List.replicate (m + 1) 0) := by
    rw [List.eq_replicate]
    refine ⟨by rw [List.length_map, List.length_range], ?_⟩
    intro row hrow
    rw [List.mem_map] at hrow
    obtain ⟨r, hr, rfl⟩ := hrow
    rw [List.mem_range] at hr
    unfold newRow
    by_cases h1 : r < m
    · rw [if_pos h1, List.drop_replicate, List.take_replicate]
      have hle : m ≤ m * m - r * m := by
        have h2 : (r + 1) * m ≤ m * m := Nat.mul_le_mul_right m h1
        have h3 : (r + 1) * m = r * m + m := by ring
        omega
      rw [Nat.min_eq_left hle, ← List.replicate_succ']
    · rw [if_neg h1]
  rw [hmap, flatten_replicate_replicate]

theorem addNodes_mat : ∀ (k m : ℕ),
    addNodes (GraphMat.mk m (List.replicate (m * m) 0)) k
      = ⟨m + k, List.replicate ((m + k) * (m + k)) 0⟩ := by
  intro k
  induction k with
  | zero =>
    intro m
    rfl
  | succ k ih =>
    intro m
    show addNodes (GraphMat.mk m (List.replicate (m * m) 0)).add_node.1 k = _
    rw [add_node_replicate]
    simp only
    rw [ih (m + 1)]
    have : m + 1 + k = m + (k + 1) := by omega
    rw [this]

theorem addNodes_mat_empty (k : ℕ) :
    addNodes matEmpty k = ⟨k, List.replicate (k * k) 0⟩ := by
  have h0 : matEmpty = GraphMat.mk 0 (List.replicate (0 * 0) 0) := rfl
  rw [h0, addNodes_mat]
  have : 0 + k = k := by omega
  rw [this]

theorem addNodes_adjMain : ∀ (k : ℕ) (g : GraphAdjMain),
    (addNodes g k).node_edges = g.node_edges := by
  intro k
  induction k with
  | zero => intro g; rfl
  | succ k ih =>
    intro g
    show (addNodes (g.add_node).1 k).node_edges = _
    rw [ih]
    rfl

theorem processEdges_adjMain {n : ℕ} : ∀ (rows : List (List ℕ)) (g : GraphAdjMain),
    (∀ row ∈ rows, goodRow n row = true) →
    ∃ g2, processEdges rows g = some g2 ∧
      g2.node_edges = rows.foldl (fun es row => insertEdge (decRow row) es) g.node_edges := by
  intro rows
  induction rows with
  | nil =>
    intro g _
    exact ⟨g, rfl, rfl⟩
  | cons row rest ih =>
    intro g hgood
    have hrowgood : goodRow n row = true := hgood row (List.mem_cons_self _ _)
    match row with
    | [] => simp [goodRow] at hrowgood
    | [x] => simp [goodRow] at hrowgood
    | [x, y] => simp [goodRow] at hrowgood
    | x :: y :: z :: u :: rest2 => simp [goodRow] at hrowgood
    | [a, b, w] =>
      simp only [goodRow, Bool.and_eq_true, decide_eq_true_eq] at hrowgood
      obtain ⟨⟨⟨⟨ha1, _⟩, hb1⟩, _⟩, _⟩ := hrowgood
      show ∃ g2, (if a = 0 ∨ b = 0 then none
        else (GraphC.add_edge g (a - 1) (b - 1) w).bind (processEdges rest)) = some g2 ∧ _
      rw [if_neg (by omega)]
      show ∃ g2, (g.add_edge (a - 1) (b - 1) w).bind (processEdges rest) = some g2 ∧ _
      unfold GraphAdjMain.add_edge
      rw [Option.some_bind]
      obtain ⟨g2, hrun, hedges⟩ :=
        ih ⟨g.next_node, g.nodes, insertEdge (a - 1, b - 1, w) g.node_edges⟩
          (fun r hr => hgood r (List.mem_cons_of_mem _ hr))
      exact ⟨g2, hrun, hedges⟩

theorem mem_foldl_insert_decRow {x : Edge} (rows : List (List ℕ)) (s : List Edge) :
    x ∈ rows.foldl (fun es row => insertEdge (decRow row) es) s
      ↔ x ∈ s ∨ ∃ row ∈ rows, decRow row = x := by
  rw [← List.foldl_map decRow (fun es e => insertEdge e es) rows s, mem_foldl_insertEdge,
    List.mem_map]

theorem foldl_pick_none {p q d : ℕ} : ∀ {rows : List (List ℕ)},
    (∀ row ∈ rows, rowMatch row p q = false) →
    rows.foldl (fun acc row => if rowMatch row p q then rowW row else acc) d = d := by
  intro rows
  induction rows with
  | nil => intro _; rfl
  | cons row rest ih =>
    intro h
    rw [List.foldl_cons, if_neg (by rw [h row (List.mem_cons_self _ _)]; exact Bool.false_ne_true)]
    exact ih fun r hr => h r (List.mem_cons_of_mem _ hr)

theorem foldl_pick_const {p q w0 : ℕ} : ∀ {rows : List (List ℕ)},
    (∀ row ∈ rows, rowMatch row p q = true → rowW row = w0) →
    rows.foldl (fun acc row => if rowMatch row p q then rowW row else acc) w0 = w0 := by
  intro rows
  induction rows with
  | nil => intro _; rfl
  | cons row rest ih =>
    intro h
    rw [List.foldl_cons]
    by_cases hm : rowMatch row p q = true
    · rw [if_pos hm, h row (List.mem_cons_self _ _) hm]
      exact ih fun r hr => h r (List.mem_cons_of_mem _ hr)
    · rw [if_neg hm]
      exact ih fun r hr => h r (List.mem_cons_of_mem _ hr)

theorem foldl_pick_of_match {p q w0 d : ℕ} : ∀ {rows : List (List ℕ)},
    (∀ row ∈ rows, rowMatch row p q = true → rowW row = w0) →
    (∃ row ∈ rows, rowMatch row p q = true) →
    rows.foldl (fun acc row => if rowMatch row p q then rowW row else acc) d = w0 := by
  intro rows
  induction rows with
  | nil =>
    rintro _ ⟨row, hrow, _⟩
    simp at hrow
  | cons row rest ih =>
    rintro h ⟨r0, hr0, hm0⟩
    rw [List.foldl_cons]
    by_cases hm : rowMatch row p q = true
    · rw [if_pos hm, h row (List.mem_cons_self _ _) hm]
      exact foldl_pick_const fun r hr => h r (List.mem_cons_of_mem _ hr)
    · rw [if_neg hm]
      have hr0rest : r0 ∈ rest := by
        rcases List.mem_cons.1 hr0 with rfl | hr
        · exact absurd hm0 hm
        · exact hr
      exact ih (fun r hr => h r (List.mem_cons_of_mem _ hr)) ⟨r0, hr0rest, hm0⟩

theorem rowMatch_comm {row : List ℕ} {p q : ℕ} :
    rowMatch row p q = rowMatch row q p := by
  match row with
  | [] => rfl
  | [x] => rfl
  | [x, y] => rfl
  | x :: y :: z :: u :: rest2 => rfl
  | [a, b, w] =>
    simp only [rowMatch]
    by_cases h1 : a - 1 = p <;> by_cases h2 : b - 1 = q <;>
      by_cases h3 : a - 1 = q <;> by_cases h4 : b - 1 = p <;>
      simp [h1, h2, h3, h4]

theorem samePair_of_match {r1 r2 : List ℕ} {p q : ℕ}
    (h1 : rowMatch r1 p q = true) (h2 : rowMatch r2 p q = true) :
    samePair r1 r2 = true := by
  match r1, r2 with
  | [], _ | [x], _ | [x, y], _ | (x :: y :: z :: u :: rest2), _ =>
    simp [rowMatch] at h1
  | [a1, b1, w1], [] | [a1, b1, w1], [x] | [a1, b1, w1], [x, y]
  | [a1, b1, w1], (x :: y :: z :: u :: rest2) =>
    simp [rowMatch] at h2
  | [a1, b1, w1], [a2, b2, w2] =>
    simp only [rowMatch, Bool.or_eq_true, Bool.and_eq_true, decide_eq_true_eq] at h1 h2
    simp only [samePair, Bool.or_eq_true, Bool.and_eq_true, decide_eq_true_eq]
    omega

theorem add_edge_mat_node_count {g gE : GraphMat} {a b w : ℕ}
    (h : g.add_edge a b w = some gE) : gE.node_count = g.node_count := by
  unfold GraphMat.add_edge setW at h
  by_cases h1 : a * g.node_count + b < g.links.length
  · rw [if_pos h1, Option.some_bind] at h
    by_cases h2 : b * g.node_count + a < (g.links.set (a * g.node_count + b) w).length
    · rw [if_pos h2] at h
      have := Option.some.inj h
      rw [← this]
    · rw [if_neg h2] at h
      exact Option.noConfusion h
  · rw [if_neg h1] at h
    exact Option.noConfusion h

theorem processEdges_mat_node_count : ∀ (rows : List (List ℕ)) (g g2 : GraphMat),
    processEdges rows g = some g2 → g2.node_count = g.node_count := by
  intro rows
  induction rows with
  | nil =>
    intro g g2 h
    rw [← Option.some.inj h]
  | cons row rest ih =>
    intro g g2 h
    match row with
    | [] => exact Option.noConfusion h
    | [x] => exact Option.noConfusion h
    | [x, y] => exact Option.noConfusion h
    | x :: y :: z :: u :: rest2 => exact Option.noConfusion h
    | [a, b, w] =>
      show g2.node_count = g.node_count
      by_cases h0 : a = 0 ∨ b = 0
      · rw [show processEdges ([a, b, w] :: rest) g
          = (if a = 0 ∨ b = 0 then none
            else (GraphC.add_edge g (a - 1) (b - 1) w).bind (processEdges rest)) from rfl,
          if_pos h0] at h
        exact Option.noConfusion h
      · rw [show processEdges ([a, b, w] :: rest) g
          = (if a = 0 ∨ b = 0 then none
            else (GraphC.add_edge g (a - 1) (b - 1) w).bind (processEdges rest)) from rfl,
          if_neg h0] at h
        cases hE : GraphC.add_edge g (a - 1) (b - 1) w with
        | none =>
          rw [hE, Option.none_bind] at h
          exact Option.noConfusion h
        | some gE =>
          rw [hE, Option.some_bind] at h
          rw [ih gE g2 h]
          exact add_edge_mat_node_count hE

theorem cellAt_mk_replicate (n k r c : ℕ) :
    cellAt (GraphMat.mk n (List.replicate k 0)) r c = 0 := by
  unfold cellAt
  rw [List.getD_eq_getElem?_getD, List.getElem?_replicate]
  by_cases h : r * n + c < k
  · rw [if_pos h]
    rfl
  · rw [if_neg h]
    rfl

/-!  The claims.  Each claim of the specification gets one theorem (with
a witness instance when it has hypotheses), and a concrete
counterexample theorem when the claim as stated fails on the code. -/

/-- C6: on an adjacency-matrix graph with `N` nodes (well-formed backing
array of length `N^2`), `add_node` returns `N`, and leaves a backing
array of length `(N+1)^2` in which every old cell `(r, c)` with
`r, c < N` keeps its weight and every cell of the new row `N` and new
column `N` is 0. -/
theorem c6_add_node_frame (g : GraphMat)
    (hlen : g.links.length = g.node_count ^ 2) :
    (g.add_node).2 = g.node_count ∧
    (g.add_node).1.links.length = (g.node_count + 1) ^ 2 ∧
    (∀ r c, r < g.node_count → c < g.node_count →
      cellAt (g.add_node).1 r c = cellAt g r c) ∧
    (∀ c, c ≤ g.node_count → cellAt (g.add_node).1 g.node_count c = 0) ∧
    (∀ r, r ≤ g.node_count → cellAt (g.add_node).1 r g.node_count = 0) := by
  have hlen' : g.links.length = g.node_count * g.node_count := by
    rw [hlen, pow_two]
  refine ⟨add_node_snd g, ?_, ?_, ?_, ?_⟩
  · rw [length_add_node hlen', pow_two]
  · intro r c hr hc
    rw [cellAt_add_node hlen' (by omega) (by omega), if_pos ⟨hr, hc⟩]
  · intro c hc
    rw [cellAt_add_node hlen' (by omega) (by omega), if_neg (by omega)]
  · intro r hr
    rw [cellAt_add_node hlen' (by omega) (by omega), if_neg (by omega)]

theorem c6_witness :
    (GraphMat.mk 1 [7]).links.length = (GraphMat.mk 1 [7]).node_count ^ 2 ∧
    ((GraphMat.mk 1 [7]).add_node).2 = 1 ∧
    cellAt ((GraphMat.mk 1 [7]).add_node).1 0 0 = cellAt (GraphMat.mk 1 [7]) 0 0 ∧
    cellAt ((GraphMat.mk 1 [7]).add_node).1 1 0 = 0 ∧
    cellAt ((GraphMat.mk 1 [7]).add_node).1 0 1 = 0 := by
  have h := c6_add_node_frame (GraphMat.mk 1 [7]) (by decide)
  exact ⟨by decide, h.1, h.2.2.1 0 0 (by decide) (by decide),
    h.2.2.2.1 0 (by decide), h.2.2.2.2 0 (by decide)⟩

/-- C9: the `lib.rs` matrix `get_edge_weight` is total; in particular
whenever the computed flat index `a * node_count + b` falls outside the
backing array (never-created identifiers, zero-node graph), it returns
`None` instead of aborting.  In the model the function is total by
construction (it returns an `Option` and has no panic case). -/
theorem c9_get_total (g : GraphMat) (a b : ℕ)
    (h : g.links.length ≤ a * g.node_count + b) :
    g.get_edge_weight a b = none :=
  get_edge_weight_none_of_le h

theorem c9_witness :
    matEmpty.links.length ≤ 0 * matEmpty.node_count + 0 ∧
    matEmpty.get_edge_weight 0 0 = none :=
  ⟨by decide, c9_get_total matEmpty 0 0 (by decide)⟩

/-- C1 (amended): for every adjacency-matrix graph built through the
public interface, the `main.rs` `edges()` yields each recorded
undirected edge exactly once — the canonically oriented triple is an
element, and for distinct endpoints the opposite orientation is not.
The claim as frozen also covers the `lib.rs` `edges()` implementations,
which return both orientations (see the counterexample). -/
theorem c1_mat_main_edges_once {ops : List Op} {g : GraphMat} {a b w : ℕ}
    (hrun : runOps ops matEmpty = some g)
    (hvalid : validOps ops 0 = true)
    (ha : a < g.node_count) (hb : b < g.node_count)
    (hcell : cellAt g a b = w) (hw : w ≠ 0) :
    (min a b, max a b, w) ∈ matEdgesMain g ∧
      (a ≠ b → (max a b, min a b, w) ∉ matEdgesMain g) := by
  obtain ⟨g2, hrun2, _, hlen2, hsymm2, _⟩ :=
    runOps_inv ops matEmpty hvalid rfl
      (by intro p q hp hq; rw [show matEmpty.node_count = 0 from rfl] at hp; omega)
  have hg : g2 = g := Option.some.inj (hrun2.symm.trans hrun)
  subst hg
  have hcellmm : cellAt g2 (min a b) (max a b) = w := by
    rcases Nat.le_total a b with hab | hab
    · rw [Nat.min_eq_left hab, Nat.max_eq_right hab]
      exact hcell
    · rw [Nat.min_eq_right hab, Nat.max_eq_left hab]
      rw [← hsymm2 a b ha hb]
      exact hcell
  constructor
  · exact (mem_matEdgesMain hlen2).2
      ⟨min_le_max, by omega, hcellmm, hw⟩
  · intro hab hmem
    have := (mem_matEdgesMain hlen2).1 hmem
    omega

theorem c1_witness :
    validOps [Op.node, Op.node, Op.edge 0 1 5] 0 = true ∧
    runOps [Op.node, Op.node, Op.edge 0 1 5] matEmpty = some (GraphMat.mk 2 [0, 5, 5, 0]) ∧
    (0, 1, 5) ∈ matEdgesMain (GraphMat.mk 2 [0, 5, 5, 0]) ∧
    (1, 0, 5) ∉ matEdgesMain (GraphMat.mk 2 [0, 5, 5, 0]) := by
  have h := @c1_mat_main_edges_once [Op.node, Op.node, Op.edge 0 1 5]
    (GraphMat.mk 2 [0, 5, 5, 0]) 0 1 5
    (by decide) (by decide) (by decide) (by decide) (by decide) (by decide)
  exact ⟨by decide, by decide, h.1, h.2 (by decide)⟩

/-- C1 counterexample: the claim quantifies over both source files, but
after building two nodes and one edge of weight 5 through the public
interface, the `lib.rs` matrix `edges()` contains both `(0, 1, 5)` and
`(1, 0, 5)` — the same undirected edge twice, in both orientations. -/
theorem c1_counterexample :
    validOps [Op.node, Op.node, Op.edge 0 1 5] 0 = true ∧
    runOps [Op.node, Op.node, Op.edge 0 1 5] matEmpty = some (GraphMat.mk 2 [0, 5, 5, 0]) ∧
    (0, 1, 5) ∈ (GraphMat.mk 2 [0, 5, 5, 0]).edges ∧
    (1, 0, 5) ∈ (GraphMat.mk 2 [0, 5, 5, 0]).edges := by
  decide

/-- C7 (amended): on a matrix graph reachable through the public
interface with only valid `add_edge` calls of weight at least 1,
`get_edge_weight a b` is absent iff no `add_edge` between `a` and `b`
(in either order) ever occurred — for queried identifiers `a, b` that
are existing nodes.  The claim as frozen quantifies over all
identifiers, where the unchecked index arithmetic can alias another
pair's cell (see the counterexample). -/
theorem c7_get_absent_iff {ops : List Op} {g : GraphMat} {a b : ℕ}
    (hrun : runOps ops matEmpty = some g)
    (hvalid : validOps ops 0 = true)
    (ha : a < g.node_count) (hb : b < g.node_count) :
    (g.get_edge_weight a b = none ↔ pairInOps a b ops = false) := by
  obtain ⟨g2, hrun2, _, hlen2, _, hchar⟩ :=
    runOps_inv ops matEmpty hvalid rfl
      (by intro p q hp hq; rw [show matEmpty.node_count = 0 from rfl] at hp; omega)
  have hg : g2 = g := Option.some.inj (hrun2.symm.trans hrun)
  subst hg
  have hchar2 := hchar a b ha hb
  rw [get_edge_weight_eq_cellAt hlen2 ha hb]
  by_cases hc : cellAt g2 a b = 0
  · rw [if_pos hc]
    constructor
    · intro _
      exact Bool.eq_false_iff.2 fun hp => absurd hc (hchar2.2 (Or.inl hp))
    · intro _
      rfl
  · rw [if_neg hc]
    constructor
    · intro h
      exact absurd h (by simp)
    · intro hfalse
      rcases hchar2.1 hc with hp | hjunk
      · rw [hp] at hfalse
        exact absurd hfalse (by simp)
      · obtain ⟨h1, _⟩ := hjunk
        rw [show matEmpty.node_count = 0 from rfl] at h1
        omega

theorem c7_witness :
    validOps [Op.node, Op.node] 0 = true ∧
    runOps [Op.node, Op.node] matEmpty = some (GraphMat.mk 2 [0, 0, 0, 0]) ∧
    pairInOps 0 1 [Op.node, Op.node] = false ∧
    (GraphMat.mk 2 [0, 0, 0, 0]).get_edge_weight 0 1 = none := by
  refine ⟨by decide, by decide, by decide, ?_⟩
  exact (@c7_get_absent_iff [Op.node, Op.node] (GraphMat.mk 2 [0, 0, 0, 0]) 0 1
    (by decide) (by decide) (by decide) (by decide)).2 (by decide)

/-- C7 counterexample: three nodes are created and one edge is added
between nodes 1 and 2 (weight 5) through the public interface; no
`add_edge` between 0 and 5 ever occurred, yet `get_edge_weight 0 5` is
`some 5` rather than absent — the unchecked index `0 * 3 + 5` aliases
the cell of the pair `(1, 2)`. -/
theorem c7_counterexample :
    validOps [Op.node, Op.node, Op.node, Op.edge 1 2 5] 0 = true ∧
    runOps [Op.node, Op.node, Op.node, Op.edge 1 2 5] matEmpty
      = some (GraphMat.mk 3 [0, 0, 0, 0, 0, 5, 0, 5, 0]) ∧
    pairInOps 0 5 [Op.node, Op.node, Op.node, Op.edge 1 2 5] = false ∧
    (GraphMat.mk 3 [0, 0, 0, 0, 0, 5, 0, 5, 0]).get_edge_weight 0 5 = some 5 := by
  decide

/-- C8: in `lib.rs`, for existing nodes `a, b` and any weight `w ≥ 1`,
immediately after `add_edge(a, b, w)` both `get_edge_weight(a, b)` and
`get_edge_weight(b, a)` return `w` — for the adjacency list (via the
trait-default `get_edge_weight` over `edges()`, under the `BTreeMap`
well-formedness invariant) and for the matrix (via its overridden
`get_edge_weight`). -/
theorem c8_symmetry :
    (∀ (g : GraphAdjLib) (a b w : ℕ) (la lb : List Edge) (g2 : GraphAdjLib),
      AdjWF g → mapGet a g.node_edges = some la → mapGet b g.node_edges = some lb →
      g.add_edge a b w = some g2 →
      g2.get_edge_weight a b = some w ∧ g2.get_edge_weight b a = some w) ∧
    (∀ (g : GraphMat) (a b w : ℕ) (g2 : GraphMat),
      g.links.length = g.node_count * g.node_count →
      a < g.node_count → b < g.node_count → 1 ≤ w →
      g.add_edge a b w = some g2 →
      g2.get_edge_weight a b = some w ∧ g2.get_edge_weight b a = some w) := by
  constructor
  · intro g a b w la lb g2 hwf hla hlb hrun
    obtain ⟨g2x, hrunx, hwf2, _, _, _, _, habw, hbaw, huniq⟩ :=
      add_edge_lib_spec (w := w) hwf hla hlb
    have hg : g2x = g2 := Option.some.inj (hrunx.symm.trans hrun)
    subst hg
    constructor
    · have hu : ∀ y ∈ g2x.edges, (decide (y.1 = a) && decide (y.2.1 = b)) = true
          → y = (a, b, w) := by
        intro y hy hpy
        simp only [Bool.and_eq_true, decide_eq_true_eq] at hpy
        exact (huniq y hy).1 hpy.1 hpy.2
      unfold GraphAdjLib.get_edge_weight
      rw [find?_eq_some_of_unique habw (by simp) hu]
      rfl
    · have hu : ∀ y ∈ g2x.edges, (decide (y.1 = b) && decide (y.2.1 = a)) = true
          → y = (b, a, w) := by
        intro y hy hpy
        simp only [Bool.and_eq_true, decide_eq_true_eq] at hpy
        exact (huniq y hy).2 hpy.1 hpy.2
      unfold GraphAdjLib.get_edge_weight
      rw [find?_eq_some_of_unique hbaw (by simp) hu]
      rfl
  · intro g a b w g2 hlen ha hb hw hrun
    have hsome : (GraphMat.mk g.node_count g.links).add_edge a b w
        = some (GraphMat.mk g.node_count
          ((g.links.set (a * g.node_count + b) w).set (b * g.node_count + a) w)) :=
      add_edge_eq_some2 hlen ha hb
    have hg : g2 = GraphMat.mk g.node_count
        ((g.links.set (a * g.node_count + b) w).set (b * g.node_count + a) w) :=
      (Option.some.inj (hsome.symm.trans hrun)).symm
    subst hg
    have hlen2 : ((g.links.set (a * g.node_count + b) w).set
        (b * g.node_count + a) w).length = g.node_count * g.node_count := by
      rw [List.length_set, List.length_set]
      exact hlen
    have hcab : cellAt (GraphMat.mk g.node_count
        ((g.links.set (a * g.node_count + b) w).set (b * g.node_count + a) w)) a b = w := by
      rw [cellAt_set_pair2 hlen ha hb ha hb, if_pos (Or.inl ⟨rfl, rfl⟩)]
    have hcba : cellAt (GraphMat.mk g.node_count
        ((g.links.set (a * g.node_count + b) w).set (b * g.node_count + a) w)) b a = w := by
      rw [cellAt_set_pair2 hlen ha hb hb ha, if_pos (Or.inr ⟨rfl, rfl⟩)]
    constructor
    · rw [get_edge_weight_eq_cellAt (g := GraphMat.mk g.node_count
        ((g.links.set (a * g.node_count + b) w).set (b * g.node_count + a) w))
        hlen2 ha hb, hcab, if_neg (by omega)]
    · rw [get_edge_weight_eq_cellAt (g := GraphMat.mk g.node_count
        ((g.links.set (a * g.node_count + b) w).set (b * g.node_count + a) w))
        hlen2 hb ha, hcba, if_neg (by omega)]

theorem c8_witness :
    AdjWF (GraphAdjLib.mk 2 [(0, []), (1, [])]) ∧
    ((GraphAdjLib.mk 2 [(0, []), (1, [])]).add_edge 0 1 5
      = some (GraphAdjLib.mk 2 [(0, [(0, 1, 5)]), (1, [(1, 0, 5)])])) ∧
    (GraphAdjLib.mk 2 [(0, [(0, 1, 5)]), (1, [(1, 0, 5)])]).get_edge_weight 0 1 = some 5 ∧
    (GraphAdjLib.mk 2 [(0, [(0, 1, 5)]), (1, [(1, 0, 5)])]).get_edge_weight 1 0 = some 5 ∧
    ((GraphMat.mk 2 [0, 0, 0, 0]).add_edge 0 1 5 = some (GraphMat.mk 2 [0, 5, 5, 0])) ∧
    (GraphMat.mk 2 [0, 5, 5, 0]).get_edge_weight 0 1 = some 5 ∧
    (GraphMat.mk 2 [0, 5, 5, 0]).get_edge_weight 1 0 = some 5 := by
  have h1 := c8_symmetry.1 (GraphAdjLib.mk 2 [(0, []), (1, [])]) 0 1 5 [] []
    (GraphAdjLib.mk 2 [(0, [(0, 1, 5)]), (1, [(1, 0, 5)])])
    (by decide) (by decide) (by decide) (by decide)
  have h2 := c8_symmetry.2 (GraphMat.mk 2 [0, 0, 0, 0]) 0 1 5 (GraphMat.mk 2 [0, 5, 5, 0])
    (by decide) (by decide) (by decide) (by decide) (by decide)
  exact ⟨by decide, by decide, h1.1, h1.2, by decide, h2.1, h2.2⟩

/-- C3 (amended): on the `lib.rs` adjacency list (under the interface
invariant) and on the matrix representation, `add_edge(a,b,w1)` then
`add_edge(a,b,w2)` leaves exactly one edge between `a` and `b`, with
weight `w2`: the incidence lists of `a` and `b` each hold exactly one
entry for the pair, and the matrix cells hold `w2`.  The `main.rs`
adjacency list instead keeps both triples (see the counterexample). -/
theorem c3_upsert :
    (∀ (g : GraphAdjLib) (a b w1 w2 : ℕ) (la lb : List Edge) (g2 g3 : GraphAdjLib),
      AdjWF g → mapGet a g.node_edges = some la → mapGet b g.node_edges = some lb →
      g.add_edge a b w1 = some g2 → g2.add_edge a b w2 = some g3 →
      ∃ la3 lb3, mapGet a g3.node_edges = some la3 ∧
        la3.filter (fun e => decide (e.2.1 = b)) = [(a, b, w2)] ∧
        mapGet b g3.node_edges = some lb3 ∧
        lb3.filter (fun e => decide (e.2.1 = a)) = [(b, a, w2)]) ∧
    (∀ (g : GraphMat) (a b w1 w2 : ℕ) (g2 g3 : GraphMat),
      g.links.length = g.node_count * g.node_count →
      a < g.node_count → b < g.node_count →
      g.add_edge a b w1 = some g2 → g2.add_edge a b w2 = some g3 →
      cellAt g3 a b = w2 ∧ cellAt g3 b a = w2) := by
  constructor
  · intro g a b w1 w2 la lb g2 g3 hwf hla hlb hrun1 hrun2
    obtain ⟨g2x, hrunx, hwf2, _, _, ⟨la2, hla2, _, _, _⟩, ⟨lb2, hlb2, _, _, _⟩, _, _, _⟩ :=
      add_edge_lib_spec (w := w1) hwf hla hlb
    have hg : g2x = g2 := Option.some.inj (hrunx.symm.trans hrun1)
    subst hg
    obtain ⟨g3x, hrunx3, hwf3, _, _, ⟨la3, hla3, hla3u, hla3m, _⟩,
        ⟨lb3, hlb3, hlb3u, hlb3m, _⟩, _, _, _⟩ :=
      add_edge_lib_spec (w := w2) hwf2 hla2 hlb2
    have hg3 : g3x = g3 := Option.some.inj (hrunx3.symm.trans hrun2)
    subst hg3
    have hmemla3 : (a, la3) ∈ g3x.node_edges := mapGet_mem hla3
    have hmemlb3 : (b, lb3) ∈ g3x.node_edges := mapGet_mem hlb3
    have hndla3 : la3.Nodup :=
      List.Nodup.of_map (fun e => e.2.1) (hwf3.2.2 (a, la3) hmemla3)
    have hndlb3 : lb3.Nodup :=
      List.Nodup.of_map (fun e => e.2.1) (hwf3.2.2 (b, lb3) hmemlb3)
    refine ⟨la3, lb3, hla3, ?_, hlb3, ?_⟩
    · apply filter_eq_single_of_unique hndla3 hla3m (by simp)
      intro y hy hpy
      rw [decide_eq_true_eq] at hpy
      exact hla3u y hy hpy
    · apply filter_eq_single_of_unique hndlb3 hlb3m (by simp)
      intro y hy hpy
      rw [decide_eq_true_eq] at hpy
      exact hlb3u y hy hpy
  · intro g a b w1 w2 g2 g3 hlen ha hb hrun1 hrun2
    have hsome1 : (GraphMat.mk g.node_count g.links).add_edge a b w1
        = some (GraphMat.mk g.node_count
          ((g.links.set (a * g.node_count + b) w1).set (b * g.node_count + a) w1)) :=
      add_edge_eq_some2 hlen ha hb
    have hg2 : g2 = GraphMat.mk g.node_count
        ((g.links.set (a * g.node_count + b) w1).set (b * g.node_count + a) w1) :=
      (Option.some.inj (hsome1.symm.trans hrun1)).symm
    subst hg2
    have hlen2 : ((g.links.set (a * g.node_count + b) w1).set
        (b * g.node_count + a) w1).length = g.node_count * g.node_count := by
      rw [List.length_set, List.length_set]
      exact hlen
    have hsome2 : (GraphMat.mk g.node_count
          ((g.links.set (a * g.node_count + b) w1).set (b * g.node_count + a) w1)).add_edge
            a b w2
        = some (GraphMat.mk g.node_count
          ((((g.links.set (a * g.node_count + b) w1).set (b * g.node_count + a) w1).set
            (a * g.node_count + b) w2).set (b * g.node_count + a) w2)) :=
      add_edge_eq_some2 hlen2 ha hb
    have hg3 : g3 = GraphMat.mk g.node_count
        ((((g.links.set (a * g.node_count + b) w1).set (b * g.node_count + a) w1).set
          (a * g.node_count + b) w2).set (b * g.node_count + a) w2) :=
      (Option.some.inj (hsome2.symm.trans hrun2)).symm
    subst hg3
    constructor
    · rw [cellAt_set_pair2 hlen2 ha hb ha hb, if_pos (Or.inl ⟨rfl, rfl⟩)]
    · rw [cellAt_set_pair2 hlen2 ha hb hb ha, if_pos (Or.inr ⟨rfl, rfl⟩)]

theorem c3_witness :
    AdjWF (GraphAdjLib.mk 2 [(0, []), (1, [])]) ∧
    ((GraphAdjLib.mk 2 [(0, []), (1, [])]).add_edge 0 1 1
      = some (GraphAdjLib.mk 2 [(0, [(0, 1, 1)]), (1, [(1, 0, 1)])])) ∧
    ((GraphAdjLib.mk 2 [(0, [(0, 1, 1)]), (1, [(1, 0, 1)])]).add_edge 0 1 2
      = some (GraphAdjLib.mk 2 [(0, [(0, 1, 2)]), (1, [(1, 0, 2)])])) ∧
    (∃ la3 lb3, mapGet 0 (GraphAdjLib.mk 2 [(0, [(0, 1, 2)]), (1, [(1, 0, 2)])]).node_edges
        = some la3 ∧
      la3.filter (fun e => decide (e.2.1 = 1)) = [(0, 1, 2)] ∧
      mapGet 1 (GraphAdjLib.mk 2 [(0, [(0, 1, 2)]), (1, [(1, 0, 2)])]).node_edges
        = some lb3 ∧
      lb3.filter (fun e => decide (e.2.1 = 0)) = [(1, 0, 2)]) ∧
    cellAt (GraphMat.mk 2 [0, 2, 2, 0]) 0 1 = 2 ∧
    cellAt (GraphMat.mk 2 [0, 2, 2, 0]) 1 0 = 2 := by
  refine ⟨by decide, by decide, by decide, ?_, ?_, ?_⟩
  · exact c3_upsert.1 (GraphAdjLib.mk 2 [(0, []), (1, [])]) 0 1 1 2 [] []
      (GraphAdjLib.mk 2 [(0, [(0, 1, 1)]), (1, [(1, 0, 1)])])
      (GraphAdjLib.mk 2 [(0, [(0, 1, 2)]), (1, [(1, 0, 2)])])
      (by decide) (by decide) (by decide) (by decide) (by decide)
  · exact (c3_upsert.2 (GraphMat.mk 2 [0, 0, 0, 0]) 0 1 1 2
      (GraphMat.mk 2 [0, 1, 1, 0]) (GraphMat.mk 2 [0, 2, 2, 0])
      (by decide) (by decide) (by decide) (by decide) (by decide)).1
  · exact (c3_upsert.2 (GraphMat.mk 2 [0, 0, 0, 0]) 0 1 1 2
      (GraphMat.mk 2 [0, 1, 1, 0]) (GraphMat.mk 2 [0, 2, 2, 0])
      (by decide) (by decide) (by decide) (by decide) (by decide)).2

/-- C3 counterexample: on the `main.rs` adjacency list,
`add_edge(0,1,1)` then `add_edge(0,1,2)` leaves two triples for the
pair `(0, 1)` — the first weight is not overwritten, so the graph does
not hold exactly one edge between 0 and 1. -/
theorem c3_counterexample :
    ((GraphAdjMain.mk 2 [0, 1] []).add_edge 0 1 1
      = some (GraphAdjMain.mk 2 [0, 1] [(0, 1, 1)])) ∧
    ((GraphAdjMain.mk 2 [0, 1] [(0, 1, 1)]).add_edge 0 1 2
      = some (GraphAdjMain.mk 2 [0, 1] [(0, 1, 1), (0, 1, 2)])) ∧
    ((GraphAdjMain.mk 2 [0, 1] [(0, 1, 1), (0, 1, 2)]).edges.filter
      (fun e => decide (e.1 = 0) && decide (e.2.1 = 1))) = [(0, 1, 1), (0, 1, 2)] := by
  decide

/-- C4 (amended): on the `lib.rs` adjacency list and on the matrix
representation, `add_edge` with an endpoint that was never returned by
`add_node` fails fatally (models the `panic!` and the out-of-bounds
indexing, whose partial write is unobservable because the process
aborts).  The `main.rs` adjacency list instead silently records the
triple (see the counterexample). -/
theorem c4_missing_node_fatal :
    (∀ (g : GraphAdjLib) (a b w : ℕ),
      (mapGet a g.node_edges = none ∨ mapGet b g.node_edges = none) →
      g.add_edge a b w = none) ∧
    (∀ (g : GraphMat) (a b w : ℕ),
      g.links.length = g.node_count * g.node_count →
      (g.node_count ≤ a ∨ g.node_count ≤ b) →
      g.add_edge a b w = none) :=
  ⟨fun _ _ _ _ h => add_edge_lib_none h,
   fun _ _ _ _ hlen h => add_edge_eq_none hlen h⟩

theorem c4_witness :
    (mapGet 1 (GraphAdjLib.mk 1 [(0, [])]).node_edges = none ∨
      mapGet 0 (GraphAdjLib.mk 1 [(0, [])]).node_edges = none) ∧
    (GraphAdjLib.mk 1 [(0, [])]).add_edge 1 0 9 = none ∧
    (GraphMat.mk 1 [0]).links.length = (GraphMat.mk 1 [0]).node_count * (GraphMat.mk 1 [0]).node_count ∧
    (GraphMat.mk 1 [0]).add_edge 0 2 9 = none := by
  refine ⟨Or.inl (by decide), ?_, by decide, ?_⟩
  · exact c4_missing_node_fatal.1 (GraphAdjLib.mk 1 [(0, [])]) 1 0 9 (Or.inl (by decide))
  · exact c4_missing_node_fatal.2 (GraphMat.mk 1 [0]) 0 2 9 (by decide) (Or.inr (by decide))

/-- C4 counterexample: on the `main.rs` adjacency list no node was ever
created, yet `add_edge(0, 1, 5)` succeeds and silently records the
edge, which `edges()` then returns. -/
theorem c4_counterexample :
    adjMainEmpty.add_edge 0 1 5 = some (GraphAdjMain.mk 0 [] [(0, 1, 5)]) ∧
    (GraphAdjMain.mk 0 [] [(0, 1, 5)]).edges = [(0, 1, 5)] := by
  decide

/-- Failure predicate of the amended C5, for an adjacency-matrix
target: empty row sequence, header without exactly two values, fewer
than `edgeCount` edge rows, or — beyond the frozen claim's four
conditions — one of the first `edgeCount` edge rows with wrong arity, a
zero endpoint, or an endpoint above `nodeCount`. -/
def fillMatFails (rows : List (List ℕ)) : Bool :=
  match rows with
  | [] => true
  | head :: tail =>
    match head with
    | [vc, ec] => decide (tail.length < ec) || (tail.take ec).any (badMatRow vc)
    | _ => true

/-- C5 (amended, adjacency-matrix target): `fill_graph` on a fresh
matrix graph fails fatally iff the rows are empty, the header does not
hold exactly two values, fewer than `edgeCount` edge rows are
available, or one of the first `edgeCount` edge rows has wrong arity, a
zero endpoint (u32 underflow in the 1-to-0-index conversion) or an
endpoint above `nodeCount` (out-of-bounds write in `add_edge`);
otherwise it adds exactly `nodeCount` nodes and then processes exactly
the first `edgeCount` edge rows through `add_edge(a-1, b-1, w)`, ending
with `node_count = nodeCount`.  The frozen claim lists only the first
four conditions (see the counterexample). -/
theorem c5_fill_mat_spec (rows : List (List ℕ)) :
    (fill_graph rows matEmpty = none ↔ fillMatFails rows = true) ∧
    (∀ vc ec tail, rows = [vc, ec] :: tail → ec ≤ tail.length →
      fill_graph rows matEmpty = processEdges (tail.take ec) (addNodes matEmpty vc)) ∧
    (∀ vc ec tail, rows = [vc, ec] :: tail →
      ∀ g2, fill_graph rows matEmpty = some g2 → g2.node_count = vc) := by
  match rows with
  | [] =>
    refine ⟨by constructor <;> intro <;> rfl, ?_, ?_⟩
    · intro vc ec tail h
      exact absurd h (by simp)
    · intro vc ec tail h
      exact absurd h (by simp)
  | head :: tail =>
    match head with
    | [] =>
      refine ⟨by constructor <;> intro <;> rfl, ?_, ?_⟩
      · intro vc ec tail2 h _
        exact absurd (List.cons.inj h).1 (by simp)
      · intro vc ec tail2 h
        exact absurd (List.cons.inj h).1 (by simp)
    | [x] =>
      refine ⟨by constructor <;> intro <;> rfl, ?_, ?_⟩
      · intro vc ec tail2 h _
        exact absurd (List.cons.inj h).1 (by simp)
      · intro vc ec tail2 h
        exact absurd (List.cons.inj h).1 (by simp)
    | x :: y :: z :: rest2 =>
      refine ⟨by constructor <;> intro <;> rfl, ?_, ?_⟩
      · intro vc ec tail2 h _
        exact absurd (List.cons.inj h).1 (by simp)
      · intro vc ec tail2 h
        exact absurd (List.cons.inj h).1 (by simp)
    | [vc0, ec0] =>
      have hfill : fill_graph ([vc0, ec0] :: tail) matEmpty
          = if ec0 ≤ tail.length then
              processEdges (tail.take ec0) (addNodes matEmpty vc0)
            else none := rfl
      have hfails : fillMatFails ([vc0, ec0] :: tail)
          = (decide (tail.length < ec0) || (tail.take ec0).any (badMatRow vc0)) := rfl
      by_cases hec : ec0 ≤ tail.length
      · have hnodes : addNodes matEmpty vc0
            = GraphMat.mk vc0 (List.replicate (vc0 * vc0) 0) := addNodes_mat_empty vc0
        refine ⟨?_, ?_, ?_⟩
        · rw [hfill, if_pos hec, hfails, hnodes]
          rw [processEdges_mat_none (tail.take ec0)
            (GraphMat.mk vc0 (List.replicate (vc0 * vc0) 0)) rfl (by
              rw [List.length_replicate])]
          constructor
          · intro h
            rw [h, Bool.or_true]
          · intro h
            rcases Bool.or_eq_true_iff.1 h with h | h
            · rw [decide_eq_true_eq] at h
              omega
            · exact h
        · intro vc ec tail2 h hec2
          have h1 : vc0 = vc ∧ ec0 = ec ∧ tail = tail2 := by
            have := List.cons.inj h
            refine ⟨?_, ?_, this.2⟩
            · exact (List.cons.inj this.1).1
            · exact (List.cons.inj (List.cons.inj this.1).2).1
          obtain ⟨rfl, rfl, rfl⟩ := h1
          rw [hfill, if_pos hec]
        · intro vc ec tail2 h g2 hsome
          have h1 : vc0 = vc ∧ ec0 = ec ∧ tail = tail2 := by
            have := List.cons.inj h
            refine ⟨?_, ?_, this.2⟩
            · exact (List.cons.inj this.1).1
            · exact (List.cons.inj (List.cons.inj this.1).2).1
          obtain ⟨rfl, rfl, rfl⟩ := h1
          rw [hfill, if_pos hec, hnodes] at hsome
          have := processEdges_mat_node_count _ _ _ hsome
          rw [this]
      · refine ⟨?_, ?_, ?_⟩
        · rw [hfill, if_neg hec, hfails]
          constructor
          · intro _
            rw [show decide (tail.length < ec0) = true from by rw [decide_eq_true_eq]; omega]
            rw [Bool.true_or]
          · intro _
            rfl
        · intro vc ec tail2 h hec2
          have h1 : vc0 = vc ∧ ec0 = ec ∧ tail = tail2 := by
            have := List.cons.inj h
            refine ⟨?_, ?_, this.2⟩
            · exact (List.cons.inj this.1).1
            · exact (List.cons.inj (List.cons.inj this.1).2).1
          obtain ⟨rfl, rfl, rfl⟩ := h1
          omega
        · intro vc ec tail2 h g2 hsome
          rw [hfill, if_neg hec] at hsome
          exact Option.noConfusion hsome

theorem c5_witness :
    fillMatFails [[2, 1], [1, 2, 5]] = false ∧
    fill_graph [[2, 1], [1, 2, 5]] matEmpty ≠ none ∧
    (∀ g2, fill_graph [[2, 1], [1, 2, 5]] matEmpty = some g2 → g2.node_count = 2) := by
  refine ⟨by decide, fun h => ?_, ?_⟩
  · have h2 := (c5_fill_mat_spec [[2, 1], [1, 2, 5]]).1.mp h
    exact absurd h2 (by decide)
  · exact (c5_fill_mat_spec [[2, 1], [1, 2, 5]]).2.2 2 1 [[1, 2, 5]] rfl

/-- C5 counterexample: the input `[[1, 1], [3, 3, 7]]` is nonempty, its
header has exactly two values, its single edge row has exactly three
values, and one edge row is available — none of the claim's four
failure conditions holds — yet `fill_graph` on a matrix target fails
fatally, because `add_edge(2, 2, 7)` indexes outside the 1-node
matrix. -/
theorem c5_counterexample :
    fill_graph [[1, 1], [3, 3, 7]] matEmpty = none ∧
    ([[1, 1], [3, 3, 7]] : List (List ℕ)) ≠ [] ∧
    ([1, 1] : List ℕ).length = 2 ∧
    ([3, 3, 7] : List ℕ).length = 3 ∧
    1 ≤ ([[3, 3, 7]] : List (List ℕ)).length := by
  decide

theorem goodRow_shape {n : ℕ} {row : List ℕ} (h : goodRow n row = true) :
    ∃ a b w, row = [a, b, w] ∧ 1 ≤ a ∧ a ≤ n ∧ 1 ≤ b ∧ b ≤ n ∧ 1 ≤ w := by
  match row with
  | [] => simp [goodRow] at h
  | [x] => simp [goodRow] at h
  | [x, y] => simp [goodRow] at h
  | x :: y :: z :: u :: rest2 => simp [goodRow] at h
  | [a, b, w] =>
    simp only [goodRow, Bool.and_eq_true, decide_eq_true_eq] at h
    exact ⟨a, b, w, rfl, h.1.1.1.1, h.1.1.1.2, h.1.1.2, h.1.2, h.2⟩

/-- C2 (amended): for every well-formed input — a `[nodeCount,
edgeCount]` header, at least `edgeCount` edge rows, each of the first
`edgeCount` rows of the form `[a, b, w]` with `1 ≤ a, b ≤ nodeCount`
and `w ≥ 1` — in which no unordered endpoint pair occurs in two edge
rows with different weights, `fill_graph` succeeds on both `main.rs`
graphs and the two `edges()` results are equal as unordered collections
of (unordered pair, weight): a triple lies in one result, in either
orientation, exactly when it lies in the other in either orientation.
Duplicate-pair inputs with differing weights break the equivalence
(see the counterexample). -/
theorem c2_cross_representation {vc ec : ℕ} {tail : List (List ℕ)}
    (hec : ec ≤ tail.length)
    (hgood : ∀ row ∈ tail.take ec, goodRow vc row = true)
    (hcons : Consistent (tail.take ec)) :
    ∃ ga gm, fill_graph ([vc, ec] :: tail) adjMainEmpty = some ga ∧
      fill_graph ([vc, ec] :: tail) matEmpty = some gm ∧
      ∀ p q w, ((p, q, w) ∈ ga.edges ∨ (q, p, w) ∈ ga.edges)
        ↔ ((p, q, w) ∈ matEdgesMain gm ∨ (q, p, w) ∈ matEdgesMain gm) := by
  obtain ⟨ga, hga, hgaedges⟩ :=
    processEdges_adjMain (n := vc) (tail.take ec) (addNodes adjMainEmpty vc) hgood
  obtain ⟨gm, hgm, hcgm, hlgm, hcells⟩ := processEdges_mat (n := vc) (tail.take ec)
    (GraphMat.mk vc (List.replicate (vc * vc) 0)) rfl (by rw [List.length_replicate]) hgood
  have hfa : fill_graph ([vc, ec] :: tail) adjMainEmpty = some ga := by
    show (if ec ≤ tail.length then
      processEdges (tail.take ec) (addNodes adjMainEmpty vc) else none) = some ga
    rw [if_pos hec]
    exact hga
  have hfm : fill_graph ([vc, ec] :: tail) matEmpty = some gm := by
    show (if ec ≤ tail.length then
      processEdges (tail.take ec) (addNodes matEmpty vc) else none) = some gm
    rw [if_pos hec, addNodes_mat_empty]
    exact hgm
  have hmemadj : ∀ x : Edge, x ∈ ga.edges ↔ ∃ row ∈ tail.take ec, decRow row = x := by
    intro x
    show x ∈ ga.node_edges ↔ _
    rw [hgaedges, addNodes_adjMain, mem_foldl_insert_decRow]
    show x ∈ ([] : List Edge) ∨ _ ↔ _
    simp
  have hlen_gm : gm.links.length = gm.node_count * gm.node_count := by
    rw [hcgm]
    exact hlgm
  have hcell0 : ∀ p q, p < vc → q < vc → cellAt gm p q
      = (tail.take ec).foldl (fun acc row => if rowMatch row p q then rowW row else acc) 0 := by
    intro p q hp hq
    rw [hcells p q hp hq, cellAt_mk_replicate]
  have hcell_iff : ∀ p q w, p < vc → q < vc → 1 ≤ w →
      (cellAt gm p q = w ↔ ∃ row ∈ tail.take ec, rowMatch row p q = true ∧ rowW row = w) := by
    intro p q w hp hq hw
    rw [hcell0 p q hp hq]
    constructor
    · intro hfold
      by_cases hex : ∃ row ∈ tail.take ec, rowMatch row p q = true
      · obtain ⟨row0, hrow0, hm0⟩ := hex
        have hall : ∀ r ∈ tail.take ec, rowMatch r p q = true → rowW r = rowW row0 := by
          intro r hr hmr
          exact hcons r hr row0 hrow0 (samePair_of_match hmr hm0)
        have hpick := foldl_pick_of_match (d := 0) hall ⟨row0, hrow0, hm0⟩
        rw [hpick] at hfold
        exact ⟨row0, hrow0, hm0, hfold⟩
      · have hnone : ∀ r ∈ tail.take ec, rowMatch r p q = false := by
          intro r hr
          cases h2 : rowMatch r p q with
          | false => rfl
          | true => exact absurd ⟨r, hr, h2⟩ hex
        rw [foldl_pick_none hnone] at hfold
        omega
    · rintro ⟨row0, hrow0, hm0, hw0⟩
      have hall : ∀ r ∈ tail.take ec, rowMatch r p q = true → rowW r = rowW row0 := by
        intro r hr hmr
        exact hcons r hr row0 hrow0 (samePair_of_match hmr hm0)
      rw [foldl_pick_of_match (d := 0) hall ⟨row0, hrow0, hm0⟩]
      exact hw0
  have hA : ∀ p q w, ((p, q, w) ∈ ga.edges ∨ (q, p, w) ∈ ga.edges)
      ↔ ∃ row ∈ tail.take ec, rowMatch row p q = true ∧ rowW row = w := by
    intro p q w
    constructor
    · rintro (hm | hm)
      · obtain ⟨row, hrow, hdec⟩ := (hmemadj _).1 hm
        obtain ⟨a, b, w2, rfl, ha1, han, hb1, hbn, hw2⟩ := goodRow_shape (hgood _ hrow)
        have hcomp : a - 1 = p ∧ b - 1 = q ∧ w2 = w := by
          have h3 : (a - 1, b - 1, w2) = (p, q, w) := hdec
          simp only [Prod.mk.injEq] at h3
          exact ⟨h3.1, h3.2.1, h3.2.2⟩
        refine ⟨[a, b, w2], hrow, ?_, ?_⟩
        · simp only [rowMatch, Bool.or_eq_true, Bool.and_eq_true, decide_eq_true_eq]
          tauto
        · show w2 = w
          tauto
      · obtain ⟨row, hrow, hdec⟩ := (hmemadj _).1 hm
        obtain ⟨a, b, w2, rfl, ha1, han, hb1, hbn, hw2⟩ := goodRow_shape (hgood _ hrow)
        have hcomp : a - 1 = q ∧ b - 1 = p ∧ w2 = w := by
          have h3 : (a - 1, b - 1, w2) = (q, p, w) := hdec
          simp only [Prod.mk.injEq] at h3
          exact ⟨h3.1, h3.2.1, h3.2.2⟩
        refine ⟨[a, b, w2], hrow, ?_, ?_⟩
        · simp only [rowMatch, Bool.or_eq_true, Bool.and_eq_true, decide_eq_true_eq]
          tauto
        · show w2 = w
          tauto
    · rintro ⟨row, hrow, hmatch, hwrow⟩
      obtain ⟨a, b, w2, rfl, ha1, han, hb1, hbn, hw2⟩ := goodRow_shape (hgood _ hrow)
      have hwr : w2 = w := hwrow
      simp only [rowMatch, Bool.or_eq_true, Bool.and_eq_true, decide_eq_true_eq] at hmatch
      rcases hmatch with ⟨h1, h2⟩ | ⟨h1, h2⟩
      · refine Or.inl ((hmemadj _).2 ⟨[a, b, w2], hrow, ?_⟩)
        show (a - 1, b - 1, w2) = (p, q, w)
        rw [h1, h2, hwr]
      · refine Or.inr ((hmemadj _).2 ⟨[a, b, w2], hrow, ?_⟩)
        show (a - 1, b - 1, w2) = (q, p, w)
        rw [h1, h2, hwr]
  have hB : ∀ p q w, ((p, q, w) ∈ matEdgesMain gm ∨ (q, p, w) ∈ matEdgesMain gm)
      ↔ ∃ row ∈ tail.take ec, rowMatch row p q = true ∧ rowW row = w := by
    intro p q w
    constructor
    · rintro (hm | hm)
      · obtain ⟨huv, hvlt, hcellw, hwne⟩ := (mem_matEdgesMain hlen_gm).1 hm
        rw [hcgm] at hvlt
        exact (hcell_iff p q w (by omega) hvlt (by omega)).1 hcellw
      · obtain ⟨huv, hvlt, hcellw, hwne⟩ := (mem_matEdgesMain hlen_gm).1 hm
        rw [hcgm] at hvlt
        obtain ⟨row, hrow, hmr, hwr⟩ :=
          (hcell_iff q p w (by omega) hvlt (by omega)).1 hcellw
        exact ⟨row, hrow, by rw [rowMatch_comm]; exact hmr, hwr⟩
    · rintro ⟨row, hrow, hmatch, hwrow⟩
      obtain ⟨a, b, w2, rfl, ha1, han, hb1, hbn, hw2⟩ := goodRow_shape (hgood _ hrow)
      have hwr : w2 = w := hwrow
      have hmatch2 := hmatch
      simp only [rowMatch, Bool.or_eq_true, Bool.and_eq_true, decide_eq_true_eq] at hmatch2
      have hpq : p < vc ∧ q < vc := by
        rcases hmatch2 with ⟨h1, h2⟩ | ⟨h1, h2⟩ <;> omega
      rcases Nat.le_total p q with hle | hle
      · refine Or.inl ((mem_matEdgesMain hlen_gm).2
          ⟨hle, by rw [hcgm]; exact hpq.2, ?_, by omega⟩)
        exact (hcell_iff p q w hpq.1 hpq.2 (by omega)).2 ⟨[a, b, w2], hrow, hmatch, hwrow⟩
      · refine Or.inr ((mem_matEdgesMain hlen_gm).2
          ⟨hle, by rw [hcgm]; exact hpq.1, ?_, by omega⟩)
        refine (hcell_iff q p w hpq.2 hpq.1 (by omega)).2 ⟨[a, b, w2], hrow, ?_, hwrow⟩
        rw [rowMatch_comm]
        exact hmatch
  exact ⟨ga, gm, hfa, hfm, fun p q w => (hA p q w).trans (hB p q w).symm⟩

theorem c2_witness :
    (1 ≤ ([[1, 2, 5]] : List (List ℕ)).length) ∧
    (∀ row ∈ ([[1, 2, 5]] : List (List ℕ)).take 1, goodRow 2 row = true) ∧
    Consistent (([[1, 2, 5]] : List (List ℕ)).take 1) ∧
    (∃ ga gm, fill_graph [[2, 1], [1, 2, 5]] adjMainEmpty = some ga ∧
      fill_graph [[2, 1], [1, 2, 5]] matEmpty = some gm ∧
      ∀ p q w, ((p, q, w) ∈ ga.edges ∨ (q, p, w) ∈ ga.edges)
        ↔ ((p, q, w) ∈ matEdgesMain gm ∨ (q, p, w) ∈ matEdgesMain gm)) :=
  ⟨by decide, by decide, by decide,
   c2_cross_representation (by decide) (by decide) (by decide)⟩

/-- C2 counterexample: the well-formed input `[[2, 2], [1, 2, 5],
[1, 2, 7]]` repeats the pair `(1, 2)` with weights 5 and 7.  The
`main.rs` adjacency list keeps both triples while the matrix keeps only
the last, so the pair `(0, 1)` appears with weight 5 in the
adjacency-list result (in some orientation) but in neither orientation
of the matrix result — the collections differ. -/
theorem c2_counterexample :
    fill_graph [[2, 2], [1, 2, 5], [1, 2, 7]] adjMainEmpty
      = some (GraphAdjMain.mk 2 [0, 1] [(0, 1, 5), (0, 1, 7)]) ∧
    fill_graph [[2, 2], [1, 2, 5], [1, 2, 7]] matEmpty
      = some (GraphMat.mk 2 [0, 7, 7, 0]) ∧
    ((0, 1, 5) ∈ (GraphAdjMain.mk 2 [0, 1] [(0, 1, 5), (0, 1, 7)]).edges ∨
      (1, 0, 5) ∈ (GraphAdjMain.mk 2 [0, 1] [(0, 1, 5), (0, 1, 7)]).edges) ∧
    ¬ ((0, 1, 5) ∈ matEdgesMain (GraphMat.mk 2 [0, 7, 7, 0]) ∨
      (1, 0, 5) ∈ matEdgesMain (GraphMat.mk 2 [0, 7, 7, 0])) := by
  decide

/-- Model of `print_edges` (same loop in both files): one output line
per element of `edges()` in its iteration order, rendering
`(e.0 + 1, e.1 + 1, e.2)`.  The emitted line sequence is a function of
the graph state alone. -/
def printEdges (es : List Edge) : List Edge :=
  es.map fun e => (e.1 + 1, e.2.1 + 1, e.2.2)

theorem printEdges_pairwise {es : List Edge} (h : es.Pairwise edgeLt) :
    (printEdges es).Pairwise edgeLt := by
  unfold printEdges
  refine List.Pairwise.map _ ?_ h
  intro e f hef
  obtain ⟨a, b, c⟩ := e
  obtain ⟨d, u, v⟩ := f
  simp only [edgeLt] at hef ⊢
  omega

/-- C10: every `edges()` result is a `BTreeSet` iterated in ascending
order, so `print_edges` emits its lines in strictly increasing
lexicographic order of the printed (first node, second node, weight)
triple — for the `lib.rs` matrix and adjacency-list graphs and the
`main.rs` matrix (whose sets are freshly collected), and for the
`main.rs` adjacency list under its stored-set sortedness invariant.
The emission order is a deterministic function of the graph state: in
the model `printEdges` is a function of `edges()`. -/
theorem c10_print_order :
    (∀ g : GraphMat, (printEdges g.edges).Pairwise edgeLt) ∧
    (∀ g : GraphMat, (printEdges (matEdgesMain g)).Pairwise edgeLt) ∧
    (∀ g : GraphAdjLib, (printEdges g.edges).Pairwise edgeLt) ∧
    (∀ g : GraphAdjMain, g.node_edges.Pairwise edgeLt →
      (printEdges g.edges).Pairwise edgeLt) := by
  refine ⟨?_, ?_, ?_, ?_⟩
  · intro g
    exact printEdges_pairwise (pairwise_collectSet _)
  · intro g
    exact printEdges_pairwise (pairwise_collectSet _)
  · intro g
    exact printEdges_pairwise (pairwise_collectSet _)
  · intro g h
    exact printEdges_pairwise h

theorem c10_witness :
    (printEdges (GraphMat.mk 2 [0, 5, 5, 0]).edges).Pairwise edgeLt ∧
    (printEdges (matEdgesMain (GraphMat.mk 2 [0, 5, 5, 0]))).Pairwise edgeLt ∧
    (printEdges (GraphAdjLib.mk 2 [(0, [(0, 1, 5)]), (1, [(1, 0, 5)])]).edges).Pairwise edgeLt ∧
    (GraphAdjMain.mk 2 [0, 1] [(0, 1, 5), (1, 0, 4)]).node_edges.Pairwise edgeLt ∧
    (printEdges (GraphAdjMain.mk 2 [0, 1] [(0, 1, 5), (1, 0, 4)]).edges).Pairwise edgeLt :=
  ⟨c10_print_order.1 (GraphMat.mk 2 [0, 5, 5, 0]),
   c10_print_order.2.1 (GraphMat.mk 2 [0, 5, 5, 0]),
   c10_print_order.2.2.1 (GraphAdjLib.mk 2 [(0, [(0, 1, 5)]), (1, [(1, 0, 5)])]),
   by decide,
   c10_print_order.2.2.2 (GraphAdjMain.mk 2 [0, 1] [(0, 1, 5), (1, 0, 4)]) (by decide)⟩

end HmhEx1
